import Mathlib

/-!
Verification of the DFA-visualization pipeline in `scripts/visualize_dfa.py`:
the symbolic-dump parser, the explicit-automaton builder, reachability,
Tarjan SCC decomposition, the weakness check, and the guard-label fallback.

Python strings are embedded as `List Char`; Python `int` as `Int`
(restricted to ASCII digit literals, the only ones the dumps carry);
Python dicts with integer keys as functions into `Option`;
Python sets of naturals as `Finset Nat`.
-/

abbrev Chars := List Char

/-- Python `str.strip()`: drop whitespace from both ends. -/
def trimChars (s : Chars) : Chars :=
  ((s.dropWhile Char.isWhitespace).reverse.dropWhile Char.isWhitespace).reverse

/-- Python `str.split(sep)` for a one-character separator. -/
def splitOnChar (sep : Char) : Chars → List Chars
  | [] => [[]]
  | c :: rest =>
    let r := splitOnChar sep rest
    if c = sep then [] :: r
    else
      match r with
      | [] => [[c]]
      | h :: t => (c :: h) :: t

/-- Python `str.split(sep, 1)`: split at the first occurrence only;
`none` when the separator does not occur (the `'=' not in line` test). -/
def splitFirstOn (sep : Char) : Chars → Option (Chars × Chars)
  | [] => none
  | c :: rest =>
    if c = sep then some ([], rest)
    else
      match splitFirstOn sep rest with
      | none => none
      | some (k, v) => some (c :: k, v)

def digitVal (c : Char) : Nat := c.toNat - '0'.toNat

def parseNatDigits? (s : Chars) : Option Nat :=
  if s ≠ [] ∧ s.all Char.isDigit then
    some (s.foldl (fun a c => a * 10 + digitVal c) 0)
  else none

/-- Python `int(val)`: optional surrounding whitespace, optional sign,
then decimal digits; anything else raises `ValueError` (modelled as `none`). -/
def parseInt? (s : Chars) : Option Int :=
  match trimChars s with
  | '-' :: rest => (parseNatDigits? rest).map (fun n => -(n : Int))
  | '+' :: rest => (parseNatDigits? rest).map (fun n => (n : Int))
  | t => (parseNatDigits? t).map (fun n => (n : Int))

/-- The `dfa` dictionary built by `parse_dfa_dump` / `parse_json_dfa`. -/
structure SymbolicDfa where
  num_state_bits : Int
  num_inputs : Int
  num_outputs : Int
  state_var_indices : List Int
  input_labels : List Chars
  output_labels : List Chars
  trans_funcs : Int → Option (List (Int × Int × Int))
  accepting_minterms : List Chars
  initial_minterm : Chars

/-- The initial `dfa` dictionary of `parse_dfa_dump` (all fields defaulted). -/
def initDfa : SymbolicDfa :=
  { num_state_bits := 0
    num_inputs := 0
    num_outputs := 0
    state_var_indices := []
    input_labels := []
    output_labels := []
    trans_funcs := fun _ => none
    accepting_minterms := []
    initial_minterm := [] }

def pydfaBegin : Chars := "===PYDFA_BEGIN===".toList
def pydfaEnd : Chars := "===PYDFA_END===".toList
def keyNumStateBits : Chars := "num_state_bits".toList
def keyNumInputs : Chars := "num_inputs".toList
def keyNumOutputs : Chars := "num_outputs".toList
def keyStateVarIndices : Chars := "state_var_indices".toList
def keyInputLabels : Chars := "input_labels".toList
def keyOutputLabels : Chars := "output_labels".toList
def keyAcceptingMinterms : Chars := "accepting_minterms".toList
def keyInitialMinterm : Chars := "initial_minterm".toList
def transFuncPre : Chars := "trans_func_".toList

/-- One `state,input,output` entry of a `trans_func_<bit>` value.
`some none`: skipped (not exactly three comma-separated parts);
`none`: a part is not an integer (Python `ValueError`);
`some (some t)`: parsed triple. -/
def parseTriple? (entry : Chars) : Option (Option (Int × Int × Int)) :=
  match splitOnChar ',' entry with
  | [a, b, c] =>
    match parseInt? a, parseInt? b, parseInt? c with
    | some x, some y, some z => some (some (x, y, z))
    | _, _, _ => none
  | _ => some none

/-- The `;`-separated minterm list of a `trans_func_<bit>` value. -/
def parseTripleList? (val : Chars) : Option (List (Int × Int × Int)) :=
  (splitOnChar ';' val).foldlM
    (fun acc entry =>
      (parseTriple? entry).map (fun t? =>
        match t? with
        | some t => acc ++ [t]
        | none => acc)) []

/-- The `[int(x) for x in val.split(',')]` of `state_var_indices`. -/
def parseIntList? (val : Chars) : Option (List Int) :=
  (splitOnChar ',' val).mapM parseInt?

/-- Python dict assignment `dfa['trans_funcs'][bit] = ms`. -/
def updateTransFuncs (tf : Int → Option (List (Int × Int × Int))) (bit : Int)
    (ms : List (Int × Int × Int)) : Int → Option (List (Int × Int × Int)) :=
  fun b => if b = bit then some ms else tf b

/-- The `trans_func_<bit>` branch: `bit = int(key.split('_')[2])` (either
failure mode, missing part or unparsable integer, raises regardless of the
state), then the minterm list is parsed and assigned to `trans_funcs[bit]`
(empty value: the empty list). -/
def parseTransFunc (st : Bool × SymbolicDfa) (key val : Chars) :
    Option (Bool × SymbolicDfa) :=
  match ((splitOnChar '_' key).get? 2).bind parseInt? with
  | none => none
  | some bit =>
    if val ≠ [] then
      (parseTripleList? val).map (fun ms =>
        (st.1, { st.2 with trans_funcs := updateTransFuncs st.2.trans_funcs bit ms }))
    else some (st.1, { st.2 with trans_funcs := updateTransFuncs st.2.trans_funcs bit [] })

/-- The `key`/`val` dispatch chain of the line loop of `parse_dfa_dump`
(the `elif` ladder); `none` models an uncaught Python exception. -/
def parseKeyVal (st : Bool × SymbolicDfa) (key val : Chars) :
    Option (Bool × SymbolicDfa) :=
  if key = keyNumStateBits then
        (parseInt? val).map (fun n => (st.1, { st.2 with num_state_bits := n }))
      else if key = keyNumInputs then
        (parseInt? val).map (fun n => (st.1, { st.2 with num_inputs := n }))
      else if key = keyNumOutputs then
        (parseInt? val).map (fun n => (st.1, { st.2 with num_outputs := n }))
      else if key = keyStateVarIndices then
        if val ≠ [] then
          (parseIntList? val).map (fun l => (st.1, { st.2 with state_var_indices := l }))
        else some st
      else if key = keyInputLabels then
        if val ≠ [] then some (st.1, { st.2 with input_labels := splitOnChar ',' val })
        else some st
      else if key = keyOutputLabels then
        if val ≠ [] then some (st.1, { st.2 with output_labels := splitOnChar ',' val })
        else some st
      else if transFuncPre.isPrefixOf key then
        parseTransFunc st key val
      else if key = keyAcceptingMinterms then
        if val ≠ [] then some (st.1, { st.2 with accepting_minterms := splitOnChar ';' val })
        else some st
      else if key = keyInitialMinterm then
        some (st.1, { st.2 with initial_minterm := val })
      else some st

/-- One iteration of the line loop of `parse_dfa_dump`. The state is
`(in_dump, dfa)`; `none` models an uncaught Python exception. -/
def parseLine (st : Bool × SymbolicDfa) (rawLine : Chars) :
    Option (Bool × SymbolicDfa) :=
  let line := trimChars rawLine
  if line = pydfaBegin then some (true, st.2)
  else if line = pydfaEnd then some (false, st.2)
  else if st.1 = false then some st
  else
    match splitFirstOn '=' line with
    | none => some st
    | some (key, val) => parseKeyVal st key val

/-- The function `parse_dfa_dump(lines)`. -/
def parseDfaDump (lines : List Chars) : Option SymbolicDfa :=
  (lines.foldlM parseLine (false, initDfa)).map (·.2)

/-- The `if dfa['num_state_bits'] == 0` rejection in `main`
("Error: No DFA dump found in input"). -/
def mainRejectsDump (dfa : SymbolicDfa) : Bool :=
  dfa.num_state_bits = 0

/-- The function `minterm_to_int`: binary string to integer, LSB first
(`result |= 1 << i` for each position `i` holding `'1'`). -/
def mintermToInt (minterm : Chars) : Nat :=
  minterm.enum.foldl
    (fun result p => if p.2 = '1' then result ||| (1 <<< p.1) else result) 0

/-- The dictionary returned by `build_explicit_dfa`.  `transitions` is the
`(state, input, output) -> next_state` dict (`none` = key absent);
`trans_by_edge` is the `(state, next_state) -> [(input, output)]` defaultdict
and `edge_keys` its key list in insertion order. -/
structure ExplicitDfa where
  num_states : Nat
  num_state_bits : Nat
  num_inputs : Nat
  num_outputs : Nat
  initial_state : Nat
  accepting_states : Finset Nat
  transitions : Nat × Nat × Nat → Option Nat
  trans_by_edge : Nat × Nat → List (Nat × Nat)
  edge_keys : List (Nat × Nat)
  input_labels : List Chars
  output_labels : List Chars

/-- The inner `next_state` computation of `build_explicit_dfa`: bit `b` of the
next state is set iff bit `b` has a minterm list containing `(state, inp, out)`
(`if bit in trans_lookup and (state, inp, out) in trans_lookup[bit]`).
A negative `num_state_bits` would make Python's `1 << num_state_bits` raise,
so the builder is embedded through `Int.toNat` of the declared widths. -/
def nextStateOf (dfa : SymbolicDfa) (state inp out : Nat) : Nat :=
  (List.range dfa.num_state_bits.toNat).foldl
    (fun (ns bit : Nat) =>
      match dfa.trans_funcs (bit : Int) with
      | some ms =>
        if ((state : Int), (inp : Int), (out : Int)) ∈ ms then ns ||| ((1 : Nat) <<< bit) else ns
      | none => ns) 0

/-- The `(state, inp, out)` enumeration order of the triple loop of
`build_explicit_dfa`. -/
def allTriples (dfa : SymbolicDfa) : List (Nat × Nat × Nat) :=
  (List.range (1 <<< dfa.num_state_bits.toNat)).flatMap (fun s =>
    (List.range (1 <<< dfa.num_inputs.toNat)).flatMap (fun i =>
      (List.range (1 <<< dfa.num_outputs.toNat)).map (fun o => (s, i, o))))

/-- Python dict insertion order: append a key unless already present. -/
def dictInsertKey (ks : List (Nat × Nat)) (k : Nat × Nat) : List (Nat × Nat) :=
  if k ∈ ks then ks else ks ++ [k]

/-- The function `build_explicit_dfa(dfa)`. -/
def buildExplicitDfa (dfa : SymbolicDfa) : ExplicitDfa :=
  { num_states := 1 <<< dfa.num_state_bits.toNat
    num_state_bits := dfa.num_state_bits.toNat
    num_inputs := dfa.num_inputs.toNat
    num_outputs := dfa.num_outputs.toNat
    initial_state := if dfa.initial_minterm ≠ [] then mintermToInt dfa.initial_minterm else 0
    accepting_states :=
      ((dfa.accepting_minterms.filter (· ≠ [])).map mintermToInt).toFinset
    transitions :=
      (allTriples dfa).foldl
        (fun t k => fun q => if q = k then some (nextStateOf dfa k.1 k.2.1 k.2.2) else t q)
        (fun _ => none)
    trans_by_edge :=
      (allTriples dfa).foldl
        (fun e k => fun q =>
          if q = (k.1, nextStateOf dfa k.1 k.2.1 k.2.2) then e q ++ [(k.2.1, k.2.2)] else e q)
        (fun _ => [])
    edge_keys :=
      (allTriples dfa).foldl
        (fun ks k => dictInsertKey ks (k.1, nextStateOf dfa k.1 k.2.1 k.2.2)) []
    input_labels := dfa.input_labels
    output_labels := dfa.output_labels }

/-- The membership test `bit in trans_lookup and (state, inp, out) in
trans_lookup[bit]` of `build_explicit_dfa` (an absent bit gives `False`,
and so does an empty minterm list). -/
def transBitMember (dfa : SymbolicDfa) (state inp out bit : Nat) : Bool :=
  match dfa.trans_funcs (bit : Int) with
  | some ms => decide (((state : Int), (inp : Int), (out : Int)) ∈ ms)
  | none => false

theorem nextStateOf_eq_orFold (dfa : SymbolicDfa) (s i o : Nat) :
    nextStateOf dfa s i o =
      (List.range dfa.num_state_bits.toNat).foldl
        (fun ns bit => if transBitMember dfa s i o bit then ns ||| ((1 : Nat) <<< bit) else ns)
        0 := by
  unfold nextStateOf
  congr 1
  funext ns bit
  unfold transBitMember
  cases h : dfa.trans_funcs (bit : Int) <;> simp

theorem orFold_testBit (p : Nat → Bool) (n : Nat) (acc : Nat) (j : Nat) :
    ((List.range n).foldl
        (fun ns bit => if p bit then ns ||| ((1 : Nat) <<< bit) else ns) acc).testBit j
      = (acc.testBit j || (decide (j < n) && p j)) := by
  induction n generalizing acc with
  | zero => simp
  | succ n ih =>
    rw [List.range_succ, List.foldl_append, List.foldl_cons, List.foldl_nil]
    by_cases hp : p n
    · rw [if_pos hp, Nat.testBit_or, ih, Nat.one_shiftLeft, Nat.testBit_two_pow]
      by_cases hj : j = n
      · subst hj
        simp [hp, Nat.lt_succ_self]
      · have h1 : (decide (n = j)) = false := by simp [Ne.symm hj]
        have h2 : (decide (j < n + 1)) = (decide (j < n)) :=
          decide_eq_decide.mpr (by omega)
        rw [h1, h2, Bool.or_false]
    · rw [if_neg hp, ih]
      by_cases hj : j = n
      · subst hj
        simp [hp]
      · have h2 : (decide (j < n + 1)) = (decide (j < n)) :=
          decide_eq_decide.mpr (by omega)
        rw [h2]

theorem orFold_lt (p : Nat → Bool) (n : Nat) :
    (List.range n).foldl
        (fun ns bit => if p bit then ns ||| ((1 : Nat) <<< bit) else ns) 0 < 2 ^ n := by
  induction n with
  | zero => simp
  | succ n ih =>
    rw [List.range_succ, List.foldl_append, List.foldl_cons, List.foldl_nil]
    have hlt : (List.range n).foldl
        (fun ns bit => if p bit then ns ||| ((1 : Nat) <<< bit) else ns) 0 < 2 ^ (n + 1) :=
      lt_of_lt_of_le ih (Nat.pow_le_pow_right (by omega) (by omega))
    by_cases hp : p n
    · rw [if_pos hp]
      exact Nat.or_lt_two_pow hlt
        (by rw [Nat.one_shiftLeft]; exact Nat.pow_lt_pow_right (by omega) (by omega))
    · rw [if_neg hp]; exact hlt

/-- Bit `b` of the computed next state is exactly the per-bit membership
test, and bits at or above `num_state_bits` are zero. -/
theorem nextStateOf_testBit (dfa : SymbolicDfa) (s i o b : Nat) :
    (nextStateOf dfa s i o).testBit b
      = (decide (b < dfa.num_state_bits.toNat) && transBitMember dfa s i o b) := by
  rw [nextStateOf_eq_orFold, orFold_testBit]
  simp

theorem nextStateOf_lt (dfa : SymbolicDfa) (s i o : Nat) :
    nextStateOf dfa s i o < 2 ^ dfa.num_state_bits.toNat := by
  rw [nextStateOf_eq_orFold]
  exact orFold_lt _ _

theorem mem_allTriples (dfa : SymbolicDfa) (s i o : Nat) :
    (s, i, o) ∈ allTriples dfa ↔
      s < 2 ^ dfa.num_state_bits.toNat ∧ i < 2 ^ dfa.num_inputs.toNat ∧
        o < 2 ^ dfa.num_outputs.toNat := by
  simp only [allTriples, List.mem_flatMap, List.mem_map, List.mem_range, Nat.one_shiftLeft]
  constructor
  · rintro ⟨s', hs', i', hi', o', ho', h⟩
    injection h with h1 h2
    injection h2 with h2 h3
    subst h1; subst h2; subst h3
    exact ⟨hs', hi', ho'⟩
  · rintro ⟨hs, hi, ho⟩
    exact ⟨s, hs, i, hi, o, ho, rfl⟩

theorem allTriples_nodup (dfa : SymbolicDfa) : (allTriples dfa).Nodup := by
  unfold allTriples
  rw [List.nodup_flatMap]
  refine ⟨fun s _ => ?_, ?_⟩
  · rw [List.nodup_flatMap]
    refine ⟨fun i _ => ?_, ?_⟩
    · exact (List.nodup_range _).map (fun o o' h => by injection h with h1 h2; injection h2)
    · refine (List.nodup_range _).imp ?_
      intro i i' hne k hk hk'
      simp only [Function.onFun, List.mem_map] at hk hk'
      obtain ⟨o, _, rfl⟩ := hk
      obtain ⟨o', _, h⟩ := hk'
      injection h with h1 h2; injection h2 with h2 h3
      exact hne h2.symm
  · refine (List.nodup_range _).imp ?_
    intro s s' hne k hk hk'
    simp only [Function.onFun, List.mem_flatMap, List.mem_map, List.mem_range] at hk hk'
    obtain ⟨i, _, o, _, rfl⟩ := hk
    obtain ⟨i', _, o', _, h⟩ := hk'
    injection h with h1 h2
    exact hne h1.symm

theorem foldl_writeFn_apply (f : Nat × Nat × Nat → Nat) :
    ∀ (l : List (Nat × Nat × Nat)) (t0 : Nat × Nat × Nat → Option Nat) (q : Nat × Nat × Nat),
      (l.foldl (fun t k => fun q => if q = k then some (f k) else t q) t0) q
        = if q ∈ l then some (f q) else t0 q := by
  intro l
  induction l with
  | nil => intro t0 q; simp
  | cons a l ih =>
    intro t0 q
    rw [List.foldl_cons, ih]
    by_cases hq : q ∈ l
    · simp [hq]
    · by_cases hqa : q = a
      · subst hqa; simp [hq]
      · simp [hq, hqa]

/-- The `transitions` dict holds exactly the enumerated in-range keys, each
mapped to the computed next state. -/
theorem buildExplicitDfa_transitions (dfa : SymbolicDfa) (q : Nat × Nat × Nat) :
    (buildExplicitDfa dfa).transitions q
      = if q ∈ allTriples dfa then some (nextStateOf dfa q.1 q.2.1 q.2.2) else none :=
  foldl_writeFn_apply (fun k => nextStateOf dfa k.1 k.2.1 k.2.2) (allTriples dfa)
    (fun _ => none) q

theorem foldl_appendFn_apply (key : Nat × Nat × Nat → Nat × Nat) :
    ∀ (l : List (Nat × Nat × Nat)) (e0 : Nat × Nat → List (Nat × Nat)) (q : Nat × Nat),
      (l.foldl (fun e k => fun q => if q = key k then e q ++ [(k.2.1, k.2.2)] else e q) e0) q
        = e0 q ++ (l.filter (fun k => decide (q = key k))).map (fun k => (k.2.1, k.2.2)) := by
  intro l
  induction l with
  | nil => intro e0 q; simp
  | cons a l ih =>
    intro e0 q
    rw [List.foldl_cons, ih]
    by_cases hqa : q = key a
    · simp [hqa]
    · simp [hqa]

/-- The `trans_by_edge` defaultdict entry at `(s, t)` is the list of `(i, o)`
pairs, in enumeration order, whose computed next state from `s` is `t`. -/
theorem buildExplicitDfa_trans_by_edge (dfa : SymbolicDfa) (q : Nat × Nat) :
    (buildExplicitDfa dfa).trans_by_edge q
      = ((allTriples dfa).filter
          (fun k => decide (q = (k.1, nextStateOf dfa k.1 k.2.1 k.2.2)))).map
          (fun k => (k.2.1, k.2.2)) := by
  have h := foldl_appendFn_apply (fun k => (k.1, nextStateOf dfa k.1 k.2.1 k.2.2))
    (allTriples dfa) (fun _ => []) q
  simpa using h

theorem mem_dictInsertKey (ks : List (Nat × Nat)) (k q : Nat × Nat) :
    q ∈ dictInsertKey ks k ↔ q ∈ ks ∨ q = k := by
  unfold dictInsertKey
  by_cases h : k ∈ ks
  · simp only [if_pos h]
    constructor
    · exact Or.inl
    · rintro (hq | rfl)
      · exact hq
      · exact h
  · simp [if_neg h]

theorem foldl_dictInsert_mem (key : Nat × Nat × Nat → Nat × Nat) :
    ∀ (l : List (Nat × Nat × Nat)) (ks0 : List (Nat × Nat)) (q : Nat × Nat),
      q ∈ l.foldl (fun ks k => dictInsertKey ks (key k)) ks0 ↔
        q ∈ ks0 ∨ ∃ k ∈ l, key k = q := by
  intro l
  induction l with
  | nil => intro ks0 q; simp
  | cons a l ih =>
    intro ks0 q
    rw [List.foldl_cons, ih, mem_dictInsertKey]
    constructor
    · rintro ((hq | rfl) | ⟨k, hk, rfl⟩)
      · exact Or.inl hq
      · exact Or.inr ⟨a, List.mem_cons_self _ _, rfl⟩
      · exact Or.inr ⟨k, List.mem_cons_of_mem _ hk, rfl⟩
    · rintro (hq | ⟨k, hk, rfl⟩)
      · exact Or.inl (Or.inl hq)
      · rcases List.mem_cons.mp hk with rfl | hk'
        · exact Or.inl (Or.inr rfl)
        · exact Or.inr ⟨k, hk', rfl⟩

/-- The key set of the `trans_by_edge` dict: exactly the realized
`(state, next_state)` pairs. -/
theorem buildExplicitDfa_edge_keys (dfa : SymbolicDfa) (q : Nat × Nat) :
    q ∈ (buildExplicitDfa dfa).edge_keys ↔
      ∃ k ∈ allTriples dfa, (k.1, nextStateOf dfa k.1 k.2.1 k.2.2) = q := by
  show q ∈ (allTriples dfa).foldl _ [] ↔ _
  rw [foldl_dictInsert_mem (fun k => (k.1, nextStateOf dfa k.1 k.2.1 k.2.2))]
  simp

theorem or_two_pow_eq_add {a k : Nat} (h : a < 2 ^ k) : a ||| 2 ^ k = a + 2 ^ k := by
  have hmul := Nat.mul_add_lt_is_or h 1
  rw [Nat.mul_one] at hmul
  rw [Nat.or_comm, ← hmul, Nat.add_comm]

theorem mintermFold_enumFrom (l : Chars) :
    ∀ (k acc : Nat), acc < 2 ^ k →
      ((l.enumFrom k).foldl
          (fun result p => if p.2 = '1' then result ||| (1 <<< p.1) else result) acc)
        = acc + ∑ j ∈ Finset.range l.length, (if l.getD j '0' = '1' then 2 ^ (k + j) else 0) := by
  induction l with
  | nil => intro k acc _; simp
  | cons c l ih =>
    intro k acc h
    rw [List.enumFrom_cons, List.foldl_cons]
    have hacc : (if (k, c).2 = '1' then acc ||| (1 <<< (k, c).1) else acc)
        = acc + (if c = '1' then 2 ^ k else 0) := by
      show (if c = '1' then acc ||| (1 <<< k) else acc) = _
      by_cases hc : c = '1'
      · rw [if_pos hc, if_pos hc, Nat.one_shiftLeft, or_two_pow_eq_add h]
      · rw [if_neg hc, if_neg hc, Nat.add_zero]
    rw [hacc]
    have hlt : acc + (if c = '1' then 2 ^ k else 0) < 2 ^ (k + 1) := by
      rw [Nat.pow_succ]
      by_cases hc : c = '1' <;> simp [hc] <;> omega
    rw [ih (k + 1) _ hlt]
    rw [List.length_cons, Finset.sum_range_succ']
    simp only [List.getD_cons_succ, List.getD_cons_zero, Nat.add_zero]
    have hexp : ∀ j ∈ Finset.range l.length,
        (if l.getD j '0' = '1' then 2 ^ (k + 1 + j) else 0)
          = (if l.getD j '0' = '1' then 2 ^ (k + (j + 1)) else 0) := by
      intro j _
      rw [show k + 1 + j = k + (j + 1) by omega]
    rw [Finset.sum_congr rfl hexp]
    omega

/-- The decoder `minterm_to_int` realizes the LSB-first convention: the character at
position `j` contributes `2 ^ j` exactly when it is `'1'`. -/
theorem mintermToInt_eq_sum (m : Chars) :
    mintermToInt m
      = ∑ j ∈ Finset.range m.length, (if m.getD j '0' = '1' then 2 ^ j else 0) := by
  have h := mintermFold_enumFrom m 0 0 (by simp)
  unfold mintermToInt
  rw [List.enum_eq_enumFrom, h]
  simp

/-- C8: the builder decodes `initial_state` and `accepting_states` from their
binary-string minterms with the LSB-first convention (position `j` holding
`'1'` contributes `2 ^ j`), and an empty `initial_minterm` yields initial
state `0` (empty accepting minterms are skipped). -/
theorem claim_C8_lsb_first_decoding (dfa : SymbolicDfa) :
    ((buildExplicitDfa dfa).initial_state
        = if dfa.initial_minterm = [] then 0 else mintermToInt dfa.initial_minterm)
    ∧ (∀ n : Nat, n ∈ (buildExplicitDfa dfa).accepting_states ↔
        ∃ m ∈ dfa.accepting_minterms, m ≠ [] ∧ mintermToInt m = n)
    ∧ (∀ m : Chars,
        mintermToInt m
          = ∑ j ∈ Finset.range m.length, (if m.getD j '0' = '1' then 2 ^ j else 0)) := by
  refine ⟨?_, ?_, fun m => mintermToInt_eq_sum m⟩
  · by_cases h : dfa.initial_minterm = [] <;> simp [buildExplicitDfa, h]
  · intro n
    simp only [buildExplicitDfa, List.mem_toFinset, List.mem_map, List.mem_filter]
    constructor
    · rintro ⟨m, ⟨hm, hne⟩, rfl⟩
      exact ⟨m, hm, by simpa using hne, rfl⟩
    · rintro ⟨m, hm, hne, rfl⟩
      exact ⟨m, ⟨hm, by simpa using hne⟩, rfl⟩

/-- C3: the built `transitions` dict is total on the declared ranges, each
entry being the integer whose bit `b` (LSB first) is set exactly when the
per-bit membership test holds (absent and empty minterm sets give bit 0). -/
theorem claim_C3_transitions_total (dfa : SymbolicDfa) (s i o : Nat)
    (hs : s < 2 ^ dfa.num_state_bits.toNat)
    (hi : i < 2 ^ dfa.num_inputs.toNat)
    (ho : o < 2 ^ dfa.num_outputs.toNat) :
    (buildExplicitDfa dfa).transitions (s, i, o) = some (nextStateOf dfa s i o)
    ∧ ∀ b : Nat, (nextStateOf dfa s i o).testBit b
        = (decide (b < dfa.num_state_bits.toNat) && transBitMember dfa s i o b) := by
  constructor
  · rw [buildExplicitDfa_transitions, if_pos ((mem_allTriples dfa s i o).mpr ⟨hs, hi, ho⟩)]
  · exact fun b => nextStateOf_testBit dfa s i o b

/-- A small concrete symbolic automaton (one state bit, transition bit 0
active exactly on the triple `(0, 0, 0)`) used to witness range-conditioned
theorems. -/
def wDfa : SymbolicDfa :=
  { initDfa with
      num_state_bits := 1
      trans_funcs := fun b => if b = 0 then some [(0, 0, 0)] else none }

theorem claim_C3_transitions_total_witness :
    0 < 2 ^ wDfa.num_state_bits.toNat ∧ 0 < 2 ^ wDfa.num_inputs.toNat ∧
      0 < 2 ^ wDfa.num_outputs.toNat ∧
      (buildExplicitDfa wDfa).transitions (0, 0, 0) = some (nextStateOf wDfa 0 0 0) :=
  ⟨by decide, by decide, by decide,
    (claim_C3_transitions_total wDfa 0 0 0 (by decide) (by decide) (by decide)).1⟩

theorem count_eq_one_of_nodup_mem {α} [BEq α] [LawfulBEq α] {a : α} {l : List α}
    (d : l.Nodup) (h : a ∈ l) : l.count a = 1 := by
  induction l with
  | nil => cases h
  | cons b l ih =>
    rw [List.count_cons]
    rcases List.mem_cons.mp h with rfl | hmem
    · rw [List.count_eq_zero_of_not_mem (List.nodup_cons.mp d).1]
      simp
    · rw [ih (List.nodup_cons.mp d).2 hmem]
      have hba : ¬(b == a) = true := by
        intro hba
        rw [beq_iff_eq] at hba
        subst hba
        exact (List.nodup_cons.mp d).1 hmem
      simp [hba]

theorem buildExplicitDfa_num_states (dfa : SymbolicDfa) :
    (buildExplicitDfa dfa).num_states = 2 ^ dfa.num_state_bits.toNat := by
  show (1 <<< dfa.num_state_bits.toNat) = _
  rw [Nat.one_shiftLeft]

/-- C10: from any in-range state, the `(input, output)` pairs spread over all
edge groups `(s, t)` cover each of the `2 ^ (num_inputs + num_outputs)`
assignments exactly once, and contain nothing else. -/
theorem claim_C10_edge_labels_partition (dfa : SymbolicDfa) (s : Nat)
    (hs : s < 2 ^ dfa.num_state_bits.toNat) :
    (∀ i o : Nat, i < 2 ^ dfa.num_inputs.toNat → o < 2 ^ dfa.num_outputs.toNat →
      ∑ t ∈ Finset.range (buildExplicitDfa dfa).num_states,
        ((buildExplicitDfa dfa).trans_by_edge (s, t)).count (i, o) = 1)
    ∧ ∀ t : Nat, ∀ p ∈ (buildExplicitDfa dfa).trans_by_edge (s, t),
        p.1 < 2 ^ dfa.num_inputs.toNat ∧ p.2 < 2 ^ dfa.num_outputs.toNat ∧
          t < (buildExplicitDfa dfa).num_states := by
  constructor
  · intro i o hi ho
    have hcount : ∀ t : Nat,
        ((buildExplicitDfa dfa).trans_by_edge (s, t)).count (i, o)
          = if t = nextStateOf dfa s i o then 1 else 0 := by
      intro t
      rw [buildExplicitDfa_trans_by_edge, List.count_eq_countP, List.countP_map,
        List.countP_filter]
      by_cases ht : t = nextStateOf dfa s i o
      · subst ht
        rw [if_pos rfl]
        have hcongr : List.countP
            (fun a => ((fun x => x == (i, o)) ∘ fun k => (k.2.1, k.2.2)) a &&
              decide ((s, nextStateOf dfa s i o) = (a.1, nextStateOf dfa a.1 a.2.1 a.2.2)))
            (allTriples dfa)
            = List.countP (fun a => a == (s, i, o)) (allTriples dfa) := by
          apply List.countP_congr
          rintro ⟨k1, k2, k3⟩ _
          simp only [Function.comp, beq_iff_eq, Bool.and_eq_true, decide_eq_true_eq,
            Prod.mk.injEq]
          constructor
          · rintro ⟨⟨rfl, rfl⟩, rfl, _⟩
            exact ⟨rfl, rfl, rfl⟩
          · rintro ⟨rfl, rfl, rfl⟩
            exact ⟨⟨rfl, rfl⟩, rfl, rfl⟩
        rw [hcongr, ← List.count_eq_countP,
          count_eq_one_of_nodup_mem (allTriples_nodup dfa)
            ((mem_allTriples dfa s i o).mpr ⟨hs, hi, ho⟩)]
      · rw [if_neg ht]
        rw [List.countP_eq_zero]
        rintro ⟨k1, k2, k3⟩ _ hk
        simp only [Function.comp, beq_iff_eq, Bool.and_eq_true, decide_eq_true_eq,
          Prod.mk.injEq] at hk
        obtain ⟨⟨rfl, rfl⟩, rfl, hnext⟩ := hk
        exact ht hnext
    rw [Finset.sum_congr rfl (fun t _ => hcount t), Finset.sum_ite_eq' (Finset.range _)
      (nextStateOf dfa s i o) (fun _ => 1)]
    rw [if_pos (Finset.mem_range.mpr (by
      rw [buildExplicitDfa_num_states]; exact nextStateOf_lt dfa s i o))]
  · intro t p hp
    rw [buildExplicitDfa_trans_by_edge] at hp
    obtain ⟨k, hk, rfl⟩ := List.mem_map.mp hp
    have hkf := List.mem_filter.mp hk
    obtain ⟨k1, k2, k3⟩ := k
    have hmem := (mem_allTriples dfa k1 k2 k3).mp hkf.1
    have hkey : (s, t) = (k1, nextStateOf dfa k1 k2 k3) := of_decide_eq_true hkf.2
    injection hkey with h1 h2
    refine ⟨hmem.2.1, hmem.2.2, ?_⟩
    rw [buildExplicitDfa_num_states, h2]
    exact nextStateOf_lt dfa k1 k2 k3

theorem claim_C10_edge_labels_partition_witness :
    0 < 2 ^ wDfa.num_state_bits.toNat ∧ 0 < 2 ^ wDfa.num_inputs.toNat ∧
      0 < 2 ^ wDfa.num_outputs.toNat ∧
      ∑ t ∈ Finset.range (buildExplicitDfa wDfa).num_states,
        ((buildExplicitDfa wDfa).trans_by_edge (0, t)).count (0, 0) = 1 :=
  ⟨by decide, by decide, by decide,
    (claim_C10_edge_labels_partition wDfa 0 (by decide)).1 0 0 (by decide) (by decide)⟩

/-- The data-model invariant of the spec: a triple lies inside
`[0, 2^num_state_bits) x [0, 2^num_inputs) x [0, 2^num_outputs)`. -/
def tripleInRange (dfa : SymbolicDfa) (k : Int × Int × Int) : Bool :=
  decide (0 ≤ k.1 ∧ k.1 < ((2 ^ dfa.num_state_bits.toNat : Nat) : Int) ∧
    0 ≤ k.2.1 ∧ k.2.1 < ((2 ^ dfa.num_inputs.toNat : Nat) : Int) ∧
    0 ≤ k.2.2 ∧ k.2.2 < ((2 ^ dfa.num_outputs.toNat : Nat) : Int))

/-- The same symbolic automaton with every out-of-range triple removed from
the per-bit minterm lists. -/
def restrictInRange (dfa : SymbolicDfa) : SymbolicDfa :=
  { dfa with
      trans_funcs := fun b => (dfa.trans_funcs b).map (List.filter (tripleInRange dfa)) }

theorem nextStateOf_restrict (dfa : SymbolicDfa) (s i o : Nat)
    (hs : s < 2 ^ dfa.num_state_bits.toNat)
    (hi : i < 2 ^ dfa.num_inputs.toNat)
    (ho : o < 2 ^ dfa.num_outputs.toNat) :
    nextStateOf (restrictInRange dfa) s i o = nextStateOf dfa s i o := by
  unfold nextStateOf
  have hfun : (fun (ns bit : Nat) =>
      match (restrictInRange dfa).trans_funcs (bit : Int) with
      | some ms =>
        if ((s : Int), (i : Int), (o : Int)) ∈ ms then ns ||| ((1 : Nat) <<< bit) else ns
      | none => ns)
      = (fun (ns bit : Nat) =>
      match dfa.trans_funcs (bit : Int) with
      | some ms =>
        if ((s : Int), (i : Int), (o : Int)) ∈ ms then ns ||| ((1 : Nat) <<< bit) else ns
      | none => ns) := by
    funext ns bit
    show (match (dfa.trans_funcs (bit : Int)).map (List.filter (tripleInRange dfa)) with
      | some ms =>
        if ((s : Int), (i : Int), (o : Int)) ∈ ms then ns ||| ((1 : Nat) <<< bit) else ns
      | none => ns) = _
    cases h : dfa.trans_funcs (bit : Int) with
    | none => rfl
    | some ms =>
      show (if ((s : Int), (i : Int), (o : Int)) ∈ ms.filter (tripleInRange dfa)
          then ns ||| ((1 : Nat) <<< bit) else ns)
        = (if ((s : Int), (i : Int), (o : Int)) ∈ ms
          then ns ||| ((1 : Nat) <<< bit) else ns)
      have hmem : (((s : Int), (i : Int), (o : Int)) ∈ ms.filter (tripleInRange dfa))
          ↔ (((s : Int), (i : Int), (o : Int)) ∈ ms) := by
        rw [List.mem_filter]
        constructor
        · exact fun hh => hh.1
        · intro hm
          refine ⟨hm, ?_⟩
          unfold tripleInRange
          simp only [decide_eq_true_eq]
          exact ⟨Int.ofNat_nonneg s, by exact_mod_cast hs, Int.ofNat_nonneg i,
            by exact_mod_cast hi, Int.ofNat_nonneg o, by exact_mod_cast ho⟩
      rw [if_congr hmem rfl rfl]
  rw [hfun]
  rfl

theorem explicitDfaExt {a b : ExplicitDfa}
    (h1 : a.num_states = b.num_states) (h2 : a.num_state_bits = b.num_state_bits)
    (h3 : a.num_inputs = b.num_inputs) (h4 : a.num_outputs = b.num_outputs)
    (h5 : a.initial_state = b.initial_state)
    (h6 : a.accepting_states = b.accepting_states)
    (h7 : a.transitions = b.transitions)
    (h8 : a.trans_by_edge = b.trans_by_edge)
    (h9 : a.edge_keys = b.edge_keys)
    (h10 : a.input_labels = b.input_labels)
    (h11 : a.output_labels = b.output_labels) : a = b := by
  cases a
  cases b
  simp only [ExplicitDfa.mk.injEq]
  exact ⟨h1, h2, h3, h4, h5, h6, h7, h8, h9, h10, h11⟩

theorem foldl_congr_of_mem {α β : Type} (f g : β → α → β) (l : List α)
    (h : ∀ b : β, ∀ a ∈ l, f b a = g b a) : ∀ b0 : β, l.foldl f b0 = l.foldl g b0 := by
  induction l with
  | nil => intro b0; rfl
  | cons a l ih =>
    intro b0
    rw [List.foldl_cons, List.foldl_cons, h b0 a (List.mem_cons_self _ _)]
    exact ih (fun b x hx => h b x (List.mem_cons_of_mem _ hx)) _

/-- Removing out-of-range triples does not change the built automaton: the
builder never consults a triple outside the enumerated ranges, so an
out-of-range triple is silently ignored (and no error of any kind exists in
`build_explicit_dfa`). -/
theorem buildExplicitDfa_restrictInRange (dfa : SymbolicDfa) :
    buildExplicitDfa (restrictInRange dfa) = buildExplicitDfa dfa := by
  have hAll : allTriples (restrictInRange dfa) = allTriples dfa := rfl
  have hnext : ∀ k ∈ allTriples dfa,
      nextStateOf (restrictInRange dfa) k.1 k.2.1 k.2.2 = nextStateOf dfa k.1 k.2.1 k.2.2 := by
    rintro ⟨k1, k2, k3⟩ hk
    obtain ⟨h1, h2, h3⟩ := (mem_allTriples dfa k1 k2 k3).mp hk
    exact nextStateOf_restrict dfa k1 k2 k3 h1 h2 h3
  have htr : (buildExplicitDfa (restrictInRange dfa)).transitions
      = (buildExplicitDfa dfa).transitions := by
    funext q
    rw [buildExplicitDfa_transitions, buildExplicitDfa_transitions, hAll]
    by_cases hq : q ∈ allTriples dfa
    · rw [if_pos hq, if_pos hq, hnext q hq]
    · rw [if_neg hq, if_neg hq]
  have hed : (buildExplicitDfa (restrictInRange dfa)).trans_by_edge
      = (buildExplicitDfa dfa).trans_by_edge := by
    funext q
    rw [buildExplicitDfa_trans_by_edge, buildExplicitDfa_trans_by_edge, hAll]
    rw [List.filter_congr (fun k hk => by rw [hnext k hk])]
  have hkeys : (buildExplicitDfa (restrictInRange dfa)).edge_keys
      = (buildExplicitDfa dfa).edge_keys := by
    show (allTriples (restrictInRange dfa)).foldl _ [] = (allTriples dfa).foldl _ []
    rw [hAll]
    exact foldl_congr_of_mem _ _ _ (fun ks k hk => by rw [hnext k hk]) []
  exact explicitDfaExt rfl rfl rfl rfl rfl rfl htr hed hkeys rfl rfl

/-- C1 (amended): for every symbolic automaton the builder succeeds and its
result is unchanged when all out-of-range triples are dropped beforehand:
an out-of-range triple is silently ignored, it is never reported.
(`build_explicit_dfa` contains no error path; no `MalformedDumpError` exists
anywhere in the repository.) -/
theorem claim_C1_amended_out_of_range_silently_ignored (dfa : SymbolicDfa) :
    buildExplicitDfa dfa = buildExplicitDfa (restrictInRange dfa) :=
  (buildExplicitDfa_restrictInRange dfa).symm

/-- The Scenario C input of the spec: `trans_func_0` references state index 4
while `num_state_bits=2`. -/
def scenCLines : List Chars :=
  ["===PYDFA_BEGIN===".toList, "num_state_bits=2".toList,
    "trans_func_0=4,0,0".toList, "===PYDFA_END===".toList]

/-- C1 counterexample: on the spec's own Scenario C input the pipeline does
not fail. Parsing succeeds, the out-of-range triple `(4, 0, 0)` is present in
bit 0's minterm set, and building produces a complete `ExplicitAutomaton`
(all four states mapping every assignment to next state 0, the offending
triple never matching any enumerated key) instead of raising any error. -/
theorem claim_C1_counterexample_build_succeeds :
    (parseDfaDump scenCLines).isSome = true
    ∧ (parseDfaDump scenCLines).map (fun d => d.num_state_bits) = some 2
    ∧ (parseDfaDump scenCLines).map (fun d => d.trans_funcs 0) = some (some [(4, 0, 0)])
    ∧ (parseDfaDump scenCLines).map (fun d => (buildExplicitDfa d).num_states) = some 4
    ∧ (parseDfaDump scenCLines).map
        (fun d => (buildExplicitDfa d).transitions (0, 0, 0)) = some (some 0)
    ∧ (parseDfaDump scenCLines).map
        (fun d => (buildExplicitDfa d).transitions (1, 0, 0)) = some (some 0)
    ∧ (parseDfaDump scenCLines).map
        (fun d => (buildExplicitDfa d).transitions (2, 0, 0)) = some (some 0)
    ∧ (parseDfaDump scenCLines).map
        (fun d => (buildExplicitDfa d).transitions (3, 0, 0)) = some (some 0)
    ∧ (parseDfaDump scenCLines).map
        (fun d => (buildExplicitDfa d).transitions (4, 0, 0)) = some none := by
  decide

/-- The key part of a line as the parser sees it (`line.strip().split('=', 1)[0]`);
`none` when the line holds no `'='`. -/
def lineKey (rawLine : Chars) : Option Chars :=
  (splitFirstOn '=' (trimChars rawLine)).map (·.1)


/-- A successful `parseKeyVal` step leaves every field alone whose key the
record does not carry. -/
theorem parseKeyVal_fields (st : Bool × SymbolicDfa) (key val : Chars)
    (st' : Bool × SymbolicDfa) (h : parseKeyVal st key val = some st') :
    (key ≠ keyNumStateBits → st'.2.num_state_bits = st.2.num_state_bits)
    ∧ (key ≠ keyNumInputs → st'.2.num_inputs = st.2.num_inputs)
    ∧ (key ≠ keyNumOutputs → st'.2.num_outputs = st.2.num_outputs)
    ∧ (key ≠ keyStateVarIndices → st'.2.state_var_indices = st.2.state_var_indices)
    ∧ (key ≠ keyInputLabels → st'.2.input_labels = st.2.input_labels)
    ∧ (key ≠ keyOutputLabels → st'.2.output_labels = st.2.output_labels)
    ∧ (key ≠ keyAcceptingMinterms → st'.2.accepting_minterms = st.2.accepting_minterms)
    ∧ (key ≠ keyInitialMinterm → st'.2.initial_minterm = st.2.initial_minterm)
    ∧ (transFuncPre.isPrefixOf key = false → st'.2.trans_funcs = st.2.trans_funcs) := by
  rw [parseKeyVal] at h
  by_cases h1 : key = keyNumStateBits
  · rw [if_pos h1] at h
    obtain ⟨n, _, rfl⟩ := Option.map_eq_some'.mp h
    exact ⟨fun hk => absurd h1 hk, fun _ => rfl, fun _ => rfl, fun _ => rfl, fun _ => rfl,
      fun _ => rfl, fun _ => rfl, fun _ => rfl, fun _ => rfl⟩
  rw [if_neg h1] at h
  by_cases h2 : key = keyNumInputs
  · rw [if_pos h2] at h
    obtain ⟨n, _, rfl⟩ := Option.map_eq_some'.mp h
    exact ⟨fun _ => rfl, fun hk => absurd h2 hk, fun _ => rfl, fun _ => rfl, fun _ => rfl,
      fun _ => rfl, fun _ => rfl, fun _ => rfl, fun _ => rfl⟩
  rw [if_neg h2] at h
  by_cases h3 : key = keyNumOutputs
  · rw [if_pos h3] at h
    obtain ⟨n, _, rfl⟩ := Option.map_eq_some'.mp h
    exact ⟨fun _ => rfl, fun _ => rfl, fun hk => absurd h3 hk, fun _ => rfl, fun _ => rfl,
      fun _ => rfl, fun _ => rfl, fun _ => rfl, fun _ => rfl⟩
  rw [if_neg h3] at h
  by_cases h4 : key = keyStateVarIndices
  · rw [if_pos h4] at h
    by_cases hv : val ≠ []
    · rw [if_pos hv] at h
      obtain ⟨n, _, rfl⟩ := Option.map_eq_some'.mp h
      exact ⟨fun _ => rfl, fun _ => rfl, fun _ => rfl, fun hk => absurd h4 hk, fun _ => rfl,
        fun _ => rfl, fun _ => rfl, fun _ => rfl, fun _ => rfl⟩
    · rw [if_neg hv] at h
      cases h
      exact ⟨fun _ => rfl, fun _ => rfl, fun _ => rfl, fun _ => rfl, fun _ => rfl,
        fun _ => rfl, fun _ => rfl, fun _ => rfl, fun _ => rfl⟩
  rw [if_neg h4] at h
  by_cases h5 : key = keyInputLabels
  · rw [if_pos h5] at h
    by_cases hv : val ≠ []
    · rw [if_pos hv] at h
      cases h
      exact ⟨fun _ => rfl, fun _ => rfl, fun _ => rfl, fun _ => rfl, fun hk => absurd h5 hk,
        fun _ => rfl, fun _ => rfl, fun _ => rfl, fun _ => rfl⟩
    · rw [if_neg hv] at h
      cases h
      exact ⟨fun _ => rfl, fun _ => rfl, fun _ => rfl, fun _ => rfl, fun _ => rfl,
        fun _ => rfl, fun _ => rfl, fun _ => rfl, fun _ => rfl⟩
  rw [if_neg h5] at h
  by_cases h6 : key = keyOutputLabels
  · rw [if_pos h6] at h
    by_cases hv : val ≠ []
    · rw [if_pos hv] at h
      cases h
      exact ⟨fun _ => rfl, fun _ => rfl, fun _ => rfl, fun _ => rfl, fun _ => rfl,
        fun hk => absurd h6 hk, fun _ => rfl, fun _ => rfl, fun _ => rfl⟩
    · rw [if_neg hv] at h
      cases h
      exact ⟨fun _ => rfl, fun _ => rfl, fun _ => rfl, fun _ => rfl, fun _ => rfl,
        fun _ => rfl, fun _ => rfl, fun _ => rfl, fun _ => rfl⟩
  rw [if_neg h6] at h
  by_cases h7 : transFuncPre.isPrefixOf key
  · rw [if_pos h7] at h
    have hdone : ∀ bit ms,
        st' = (st.1, { st.2 with trans_funcs := updateTransFuncs st.2.trans_funcs bit ms }) →
        (key ≠ keyNumStateBits → st'.2.num_state_bits = st.2.num_state_bits)
        ∧ (key ≠ keyNumInputs → st'.2.num_inputs = st.2.num_inputs)
        ∧ (key ≠ keyNumOutputs → st'.2.num_outputs = st.2.num_outputs)
        ∧ (key ≠ keyStateVarIndices → st'.2.state_var_indices = st.2.state_var_indices)
        ∧ (key ≠ keyInputLabels → st'.2.input_labels = st.2.input_labels)
        ∧ (key ≠ keyOutputLabels → st'.2.output_labels = st.2.output_labels)
        ∧ (key ≠ keyAcceptingMinterms → st'.2.accepting_minterms = st.2.accepting_minterms)
        ∧ (key ≠ keyInitialMinterm → st'.2.initial_minterm = st.2.initial_minterm)
        ∧ (transFuncPre.isPrefixOf key = false →
            st'.2.trans_funcs = st.2.trans_funcs) := by
      rintro bit ms rfl
      refine ⟨fun _ => rfl, fun _ => rfl, fun _ => rfl, fun _ => rfl, fun _ => rfl,
        fun _ => rfl, fun _ => rfl, fun _ => rfl, fun hk => ?_⟩
      rw [h7] at hk
      cases hk
    rw [parseTransFunc] at h
    split at h
    · cases h
    · by_cases hv : val ≠ []
      · rw [if_pos hv] at h
        obtain ⟨ms, _, rfl⟩ := Option.map_eq_some'.mp h
        exact hdone _ ms rfl
      · rw [if_neg hv] at h
        cases h
        exact hdone _ [] rfl
  rw [if_neg h7] at h
  by_cases h8 : key = keyAcceptingMinterms
  · rw [if_pos h8] at h
    by_cases hv : val ≠ []
    · rw [if_pos hv] at h
      cases h
      exact ⟨fun _ => rfl, fun _ => rfl, fun _ => rfl, fun _ => rfl, fun _ => rfl,
        fun _ => rfl, fun hk => absurd h8 hk, fun _ => rfl, fun _ => rfl⟩
    · rw [if_neg hv] at h
      cases h
      exact ⟨fun _ => rfl, fun _ => rfl, fun _ => rfl, fun _ => rfl, fun _ => rfl,
        fun _ => rfl, fun _ => rfl, fun _ => rfl, fun _ => rfl⟩
  rw [if_neg h8] at h
  by_cases h9 : key = keyInitialMinterm
  · rw [if_pos h9] at h
    cases h
    exact ⟨fun _ => rfl, fun _ => rfl, fun _ => rfl, fun _ => rfl, fun _ => rfl,
      fun _ => rfl, fun _ => rfl, fun hk => absurd h9 hk, fun _ => rfl⟩
  rw [if_neg h9] at h
  cases h
  exact ⟨fun _ => rfl, fun _ => rfl, fun _ => rfl, fun _ => rfl, fun _ => rfl,
    fun _ => rfl, fun _ => rfl, fun _ => rfl, fun _ => rfl⟩

/-- A successful `parseLine` step leaves every field alone whose key the line
does not carry. -/
theorem parseLine_fields (st : Bool × SymbolicDfa) (line : Chars)
    (st' : Bool × SymbolicDfa) (h : parseLine st line = some st') :
    (lineKey line ≠ some keyNumStateBits → st'.2.num_state_bits = st.2.num_state_bits)
    ∧ (lineKey line ≠ some keyNumInputs → st'.2.num_inputs = st.2.num_inputs)
    ∧ (lineKey line ≠ some keyNumOutputs → st'.2.num_outputs = st.2.num_outputs)
    ∧ (lineKey line ≠ some keyStateVarIndices →
        st'.2.state_var_indices = st.2.state_var_indices)
    ∧ (lineKey line ≠ some keyInputLabels → st'.2.input_labels = st.2.input_labels)
    ∧ (lineKey line ≠ some keyOutputLabels → st'.2.output_labels = st.2.output_labels)
    ∧ (lineKey line ≠ some keyAcceptingMinterms →
        st'.2.accepting_minterms = st.2.accepting_minterms)
    ∧ (lineKey line ≠ some keyInitialMinterm → st'.2.initial_minterm = st.2.initial_minterm)
    ∧ ((∀ kk, lineKey line = some kk → transFuncPre.isPrefixOf kk = false) →
        st'.2.trans_funcs = st.2.trans_funcs) := by
  unfold parseLine at h
  by_cases hb : trimChars line = pydfaBegin
  · rw [if_pos hb] at h
    cases h
    exact ⟨fun _ => rfl, fun _ => rfl, fun _ => rfl, fun _ => rfl, fun _ => rfl,
      fun _ => rfl, fun _ => rfl, fun _ => rfl, fun _ => rfl⟩
  rw [if_neg hb] at h
  by_cases he : trimChars line = pydfaEnd
  · rw [if_pos he] at h
    cases h
    exact ⟨fun _ => rfl, fun _ => rfl, fun _ => rfl, fun _ => rfl, fun _ => rfl,
      fun _ => rfl, fun _ => rfl, fun _ => rfl, fun _ => rfl⟩
  rw [if_neg he] at h
  by_cases hd : st.1 = false
  · rw [if_pos hd] at h
    cases h
    exact ⟨fun _ => rfl, fun _ => rfl, fun _ => rfl, fun _ => rfl, fun _ => rfl,
      fun _ => rfl, fun _ => rfl, fun _ => rfl, fun _ => rfl⟩
  rw [if_neg hd] at h
  split at h
  · cases h
    exact ⟨fun _ => rfl, fun _ => rfl, fun _ => rfl, fun _ => rfl, fun _ => rfl,
      fun _ => rfl, fun _ => rfl, fun _ => rfl, fun _ => rfl⟩
  · rename_i key val hsp
    have hlk : lineKey line = some key := by rw [lineKey, hsp]; rfl
    obtain ⟨p1, p2, p3, p4, p5, p6, p7, p8, p9⟩ := parseKeyVal_fields st key val st' h
    refine ⟨fun hne => p1 fun heq => hne (hlk.trans (by rw [heq])),
      fun hne => p2 fun heq => hne (hlk.trans (by rw [heq])),
      fun hne => p3 fun heq => hne (hlk.trans (by rw [heq])),
      fun hne => p4 fun heq => hne (hlk.trans (by rw [heq])),
      fun hne => p5 fun heq => hne (hlk.trans (by rw [heq])),
      fun hne => p6 fun heq => hne (hlk.trans (by rw [heq])),
      fun hne => p7 fun heq => hne (hlk.trans (by rw [heq])),
      fun hne => p8 fun heq => hne (hlk.trans (by rw [heq])),
      fun hall => p9 (hall key hlk)⟩

theorem foldParse_fields :
    ∀ (lines : List Chars) (st0 stf : Bool × SymbolicDfa),
      lines.foldlM parseLine st0 = some stf →
      ((∀ l ∈ lines, lineKey l ≠ some keyNumStateBits) →
          stf.2.num_state_bits = st0.2.num_state_bits)
      ∧ ((∀ l ∈ lines, lineKey l ≠ some keyNumInputs) → stf.2.num_inputs = st0.2.num_inputs)
      ∧ ((∀ l ∈ lines, lineKey l ≠ some keyNumOutputs) →
          stf.2.num_outputs = st0.2.num_outputs)
      ∧ ((∀ l ∈ lines, lineKey l ≠ some keyStateVarIndices) →
          stf.2.state_var_indices = st0.2.state_var_indices)
      ∧ ((∀ l ∈ lines, lineKey l ≠ some keyInputLabels) →
          stf.2.input_labels = st0.2.input_labels)
      ∧ ((∀ l ∈ lines, lineKey l ≠ some keyOutputLabels) →
          stf.2.output_labels = st0.2.output_labels)
      ∧ ((∀ l ∈ lines, lineKey l ≠ some keyAcceptingMinterms) →
          stf.2.accepting_minterms = st0.2.accepting_minterms)
      ∧ ((∀ l ∈ lines, lineKey l ≠ some keyInitialMinterm) →
          stf.2.initial_minterm = st0.2.initial_minterm)
      ∧ ((∀ l ∈ lines, ∀ kk, lineKey l = some kk → transFuncPre.isPrefixOf kk = false) →
          stf.2.trans_funcs = st0.2.trans_funcs) := by
  intro lines
  induction lines with
  | nil =>
    intro st0 stf h
    rw [List.foldlM_nil] at h
    cases h
    exact ⟨fun _ => rfl, fun _ => rfl, fun _ => rfl, fun _ => rfl, fun _ => rfl,
      fun _ => rfl, fun _ => rfl, fun _ => rfl, fun _ => rfl⟩
  | cons a l ih =>
    intro st0 stf h
    rw [List.foldlM_cons] at h
    obtain ⟨st1, h1, h2⟩ := Option.bind_eq_some.mp h
    obtain ⟨q1, q2, q3, q4, q5, q6, q7, q8, q9⟩ := parseLine_fields st0 a st1 h1
    obtain ⟨r1, r2, r3, r4, r5, r6, r7, r8, r9⟩ := ih st1 stf h2
    refine ⟨?_, ?_, ?_, ?_, ?_, ?_, ?_, ?_, ?_⟩ <;> intro hc
    · exact (r1 fun x hx => hc x (List.mem_cons_of_mem _ hx)).trans
        (q1 (hc a (List.mem_cons_self _ _)))
    · exact (r2 fun x hx => hc x (List.mem_cons_of_mem _ hx)).trans
        (q2 (hc a (List.mem_cons_self _ _)))
    · exact (r3 fun x hx => hc x (List.mem_cons_of_mem _ hx)).trans
        (q3 (hc a (List.mem_cons_self _ _)))
    · exact (r4 fun x hx => hc x (List.mem_cons_of_mem _ hx)).trans
        (q4 (hc a (List.mem_cons_self _ _)))
    · exact (r5 fun x hx => hc x (List.mem_cons_of_mem _ hx)).trans
        (q5 (hc a (List.mem_cons_self _ _)))
    · exact (r6 fun x hx => hc x (List.mem_cons_of_mem _ hx)).trans
        (q6 (hc a (List.mem_cons_self _ _)))
    · exact (r7 fun x hx => hc x (List.mem_cons_of_mem _ hx)).trans
        (q7 (hc a (List.mem_cons_self _ _)))
    · exact (r8 fun x hx => hc x (List.mem_cons_of_mem _ hx)).trans
        (q8 (hc a (List.mem_cons_self _ _)))
    · exact (r9 fun x hx => hc x (List.mem_cons_of_mem _ hx)).trans
        (q9 (hc a (List.mem_cons_self _ _)))

/-- C5 (amended): `parse_dfa_dump` never fails because a field is absent.
Every absent field keeps its default (the three numeric fields default to 0,
collections to empty), and the only downstream rejection is `main`'s
`num_state_bits == 0` check - which absent `num_inputs` / `num_outputs` do
not trigger. -/
theorem claim_C5_amended_absent_fields_default (lines : List Chars) (dfa : SymbolicDfa)
    (h : parseDfaDump lines = some dfa) :
    ((∀ l ∈ lines, lineKey l ≠ some keyNumStateBits) →
        dfa.num_state_bits = 0 ∧ mainRejectsDump dfa = true)
    ∧ ((∀ l ∈ lines, lineKey l ≠ some keyNumInputs) → dfa.num_inputs = 0)
    ∧ ((∀ l ∈ lines, lineKey l ≠ some keyNumOutputs) → dfa.num_outputs = 0)
    ∧ ((∀ l ∈ lines, lineKey l ≠ some keyStateVarIndices) → dfa.state_var_indices = [])
    ∧ ((∀ l ∈ lines, lineKey l ≠ some keyInputLabels) → dfa.input_labels = [])
    ∧ ((∀ l ∈ lines, lineKey l ≠ some keyOutputLabels) → dfa.output_labels = [])
    ∧ ((∀ l ∈ lines, lineKey l ≠ some keyAcceptingMinterms) → dfa.accepting_minterms = [])
    ∧ ((∀ l ∈ lines, lineKey l ≠ some keyInitialMinterm) → dfa.initial_minterm = [])
    ∧ ((∀ l ∈ lines, ∀ kk, lineKey l = some kk → transFuncPre.isPrefixOf kk = false) →
        ∀ b, dfa.trans_funcs b = none)
    ∧ (mainRejectsDump dfa = true ↔ dfa.num_state_bits = 0) := by
  obtain ⟨stf, hf, rfl⟩ := Option.map_eq_some'.mp h
  obtain ⟨r1, r2, r3, r4, r5, r6, r7, r8, r9⟩ := foldParse_fields lines (false, initDfa) stf hf
  refine ⟨fun hc => ⟨r1 hc, ?_⟩, r2, r3, r4, r5, r6, r7, r8,
    fun hc b => by rw [r9 hc]; rfl, ?_⟩
  · rw [mainRejectsDump, r1 hc]
    rfl
  · rw [mainRejectsDump]
    simp

/-- The C5 test input: a dump block declaring only `num_state_bits`. -/
def c5Lines : List Chars :=
  ["===PYDFA_BEGIN===".toList, "num_state_bits=2".toList, "===PYDFA_END===".toList]

theorem claim_C5_amended_absent_fields_default_witness :
    parseDfaDump c5Lines = some { initDfa with num_state_bits := 2 }
    ∧ ((∀ l ∈ c5Lines, lineKey l ≠ some keyNumInputs) ∧
        ({ initDfa with num_state_bits := 2 } : SymbolicDfa).num_inputs = 0) := by
  have hparse : parseDfaDump c5Lines = some { initDfa with num_state_bits := 2 } := rfl
  exact ⟨hparse, by decide,
    (claim_C5_amended_absent_fields_default c5Lines _ hparse).2.1 (by decide)⟩

/-- C5 counterexample: with `num_inputs` and `num_outputs` entirely absent,
no parse failure is reported anywhere: `parse_dfa_dump` succeeds with both
fields defaulted to 0, and `main`'s only check (`num_state_bits == 0`)
passes, so the run continues to the builder instead of failing. -/
theorem claim_C5_counterexample_absent_fields_accepted :
    (parseDfaDump c5Lines).isSome = true
    ∧ c5Lines.all (fun l => decide (lineKey l ≠ some keyNumInputs)) = true
    ∧ c5Lines.all (fun l => decide (lineKey l ≠ some keyNumOutputs)) = true
    ∧ (parseDfaDump c5Lines).map (fun d => d.num_inputs) = some 0
    ∧ (parseDfaDump c5Lines).map (fun d => d.num_outputs) = some 0
    ∧ (parseDfaDump c5Lines).map mainRejectsDump = some false := by
  decide

/-- The effective input-label list of `minimize_label`:
`list(input_labels) if input_labels else [f'i{i}' ...]`. -/
def effInLabels (num_inputs : Nat) (input_labels : List Chars) : List Chars :=
  if input_labels ≠ [] then input_labels
  else (List.range num_inputs).map (fun j => 'i' :: Nat.toDigits 10 j)

/-- The effective output-label list of `minimize_label`. -/
def effOutLabels (num_outputs : Nat) (output_labels : List Chars) : List Chars :=
  if output_labels ≠ [] then output_labels
  else (List.range num_outputs).map (fun j => 'o' :: Nat.toDigits 10 j)

/-- The expression `in_labels[i] if i < len(in_labels) else f'i{i}'`. -/
def inLabelAt (num_inputs : Nat) (input_labels : List Chars) (j : Nat) : Chars :=
  match (effInLabels num_inputs input_labels)[j]? with
  | some l => l
  | none => 'i' :: Nat.toDigits 10 j

/-- The expression `out_labels[i] if i < len(out_labels) else f'o{i}'`. -/
def outLabelAt (num_outputs : Nat) (output_labels : List Chars) (j : Nat) : Chars :=
  match (effOutLabels num_outputs output_labels)[j]? with
  | some l => l
  | none => 'o' :: Nat.toDigits 10 j

/-- The variable names of one guard, inputs first, then outputs, position
`j` naming bit `j` of the corresponding assignment. -/
def effLabels (num_inputs num_outputs : Nat) (input_labels output_labels : List Chars) :
    List Chars :=
  (List.range num_inputs).map (inLabelAt num_inputs input_labels)
  ++ (List.range num_outputs).map (outLabelAt num_outputs output_labels)

/-- The `parts` list the fallback of `minimize_label` builds from the first
pair: one literal per variable, positive when the corresponding bit is 1
(`parts.append(label)`), negated when 0 (`parts.append(f'!v@label@')`,
rendered below). -/
def fallbackParts (num_inputs num_outputs : Nat) (input_labels output_labels : List Chars)
    (inp out : Nat) : List (Chars × Bool) :=
  (List.range num_inputs).map
    (fun j => (inLabelAt num_inputs input_labels j, decide ((inp >>> j) &&& 1 = 1)))
  ++ (List.range num_outputs).map
    (fun j => (outLabelAt num_outputs output_labels j, decide ((out >>> j) &&& 1 = 1)))

/-- The shape of the string the fallback of `minimize_label` returns:
the constant `'true'`, a conjunction of literals, or a conjunction followed
by the `'| ...'` elision marker. -/
inductive Guard where
  | tru : Guard
  | conj : List (Chars × Bool) → Guard
  | conjEllipsis : List (Chars × Bool) → Guard
deriving DecidableEq

/-- The function `minimize_label` specialized to `HAS_SYMPY = False` (the documented
fallback): `'true'` when the pair set covers the whole assignment space or
is empty; otherwise the conjunctive term of the FIRST pair, with the
ellipsis marker appended when more than one pair exists.
`renderGuard` below recovers the exact string the source builds. -/
def minimizeLabelFallback (io_pairs : List (Nat × Nat)) (num_inputs num_outputs : Nat)
    (input_labels output_labels : List Chars) : Guard :=
  if io_pairs.length = 1 <<< (num_inputs + num_outputs) then Guard.tru
  else
    match io_pairs with
    | [] => Guard.tru
    | (inp, out) :: rest =>
      if rest ≠ [] then
        Guard.conjEllipsis (fallbackParts num_inputs num_outputs input_labels output_labels inp out)
      else
        Guard.conj (fallbackParts num_inputs num_outputs input_labels output_labels inp out)

def renderLit (p : Chars × Bool) : Chars := if p.2 then p.1 else '!' :: p.1

/-- The string of the fallback guard: `' & '.join(parts)`, wrapped as
`f'(@parts@) | ...'` in the elided case. -/
def renderGuard : Guard → Chars
  | .tru => "true".toList
  | .conj lits => List.intercalate " & ".toList (lits.map renderLit)
  | .conjEllipsis lits =>
      '(' :: (List.intercalate " & ".toList (lits.map renderLit) ++ ") | ...".toList)

/-- The string `minimize_label` returns when sympy is unavailable. -/
def minimizeLabelNoSympy (io_pairs : List (Nat × Nat)) (num_inputs num_outputs : Nat)
    (input_labels output_labels : List Chars) : Chars :=
  renderGuard (minimizeLabelFallback io_pairs num_inputs num_outputs input_labels output_labels)

def satLits (env : Chars → Bool) (lits : List (Chars × Bool)) : Bool :=
  lits.all (fun p => env p.1 == p.2)

/-- Satisfaction of the printed guard by a variable assignment: `'true'`
satisfies everything; the ellipsis marker is not a formula and denotes
nothing, so `(c) | ...` is satisfied exactly when `c` is. -/
def satGuard (env : Chars → Bool) : Guard → Bool
  | .tru => true
  | .conj lits => satLits env lits
  | .conjEllipsis lits => satLits env lits

/-- First index of a name in a label list. -/
def firstIdx {α : Type} [DecidableEq α] (l : List α) (name : α) : Option Nat :=
  match l with
  | [] => none
  | x :: xs => if x = name then some 0 else (firstIdx xs name).map (· + 1)

/-- The Boolean environment a vector `(inp, out)` induces on the guard's
variable names: bit `j` of the input assignment for the `j`-th input label,
bit `j` of the output assignment for the `j`-th output label. -/
def envOfVec (num_inputs num_outputs : Nat) (input_labels output_labels : List Chars)
    (vec : Nat × Nat) : Chars → Bool :=
  fun name =>
    match firstIdx (effLabels num_inputs num_outputs input_labels output_labels) name with
    | some j =>
      if j < num_inputs then decide ((vec.1 >>> j) &&& 1 = 1)
      else decide ((vec.2 >>> (j - num_inputs)) &&& 1 = 1)
    | none => false

theorem firstIdx_of_getElem? {α : Type} [DecidableEq α] :
    ∀ {l : List α}, l.Nodup → ∀ {j : Nat} {x : α}, l[j]? = some x → firstIdx l x = some j := by
  intro l
  induction l with
  | nil => intro _ j x h; cases h
  | cons y ys ih =>
    intro hnd j x h
    cases j with
    | zero =>
      rw [List.getElem?_cons_zero] at h
      cases h
      rw [firstIdx, if_pos rfl]
    | succ j =>
      rw [List.getElem?_cons_succ] at h
      have hx : x ∈ ys := List.getElem?_mem h
      have hy : y ≠ x := fun he => (List.nodup_cons.mp hnd).1 (he ▸ hx)
      rw [firstIdx, if_neg hy, ih (List.nodup_cons.mp hnd).2 h]
      rfl

/-- C6 (amended): the fallback guard is always satisfied by the FIRST pair
of the edge's label set (under distinct variable names); pairs after the
first are elided behind the `'| ...'` marker and need not satisfy it. -/
theorem claim_C6_amended_first_pair_satisfies (inp out : Nat) (rest : List (Nat × Nat))
    (ni no : Nat) (il ol : List Chars)
    (hnd : (effLabels ni no il ol).Nodup) :
    satGuard (envOfVec ni no il ol (inp, out))
      (minimizeLabelFallback ((inp, out) :: rest) ni no il ol) = true := by
  have hlenA : ((List.range ni).map (inLabelAt ni il)).length = ni := by
    rw [List.length_map, List.length_range]
  have hA : ∀ j, j < ni → (effLabels ni no il ol)[j]? = some (inLabelAt ni il j) := by
    intro j hj
    rw [effLabels, List.getElem?_append, hlenA, if_pos hj, List.getElem?_map,
      List.getElem?_range hj]
    rfl
  have hB : ∀ j, j < no → (effLabels ni no il ol)[ni + j]? = some (outLabelAt no ol j) := by
    intro j hj
    rw [effLabels, List.getElem?_append, hlenA, if_neg (by omega : ¬ni + j < ni),
      show ni + j - ni = j from by omega, List.getElem?_map, List.getElem?_range hj]
    rfl
  have henv : satLits (envOfVec ni no il ol (inp, out))
      (fallbackParts ni no il ol inp out) = true := by
    rw [satLits, fallbackParts, List.all_append, Bool.and_eq_true]
    constructor
    · rw [List.all_eq_true]
      intro p hp
      obtain ⟨j, hj, rfl⟩ := List.mem_map.mp hp
      have hj' := List.mem_range.mp hj
      have hidx : firstIdx (effLabels ni no il ol) (inLabelAt ni il j) = some j :=
        firstIdx_of_getElem? hnd (hA j hj')
      show (envOfVec ni no il ol (inp, out) (inLabelAt ni il j)
        == decide ((inp >>> j) &&& 1 = 1)) = true
      simp only [envOfVec, hidx, if_pos hj']
      exact beq_self_eq_true _
    · rw [List.all_eq_true]
      intro p hp
      obtain ⟨j, hj, rfl⟩ := List.mem_map.mp hp
      have hj' := List.mem_range.mp hj
      have hidx : firstIdx (effLabels ni no il ol) (outLabelAt no ol j) = some (ni + j) :=
        firstIdx_of_getElem? hnd (hB j hj')
      show (envOfVec ni no il ol (inp, out) (outLabelAt no ol j)
        == decide ((out >>> j) &&& 1 = 1)) = true
      simp only [envOfVec, hidx, if_neg (by omega : ¬ni + j < ni),
        show ni + j - ni = j from by omega]
      exact beq_self_eq_true _
  rw [minimizeLabelFallback]
  by_cases hall : ((inp, out) :: rest).length = 1 <<< (ni + no)
  · rw [if_pos hall]; rfl
  rw [if_neg hall]
  show satGuard _ (if rest ≠ [] then
      Guard.conjEllipsis (fallbackParts ni no il ol inp out)
    else Guard.conj (fallbackParts ni no il ol inp out)) = true
  by_cases hr : rest ≠ []
  · rw [if_pos hr]; exact henv
  · rw [if_neg hr]; exact henv

theorem claim_C6_amended_first_pair_satisfies_witness :
    (effLabels 2 0 ([] : List Chars) ([] : List Chars)).Nodup
    ∧ satGuard (envOfVec 2 0 [] [] (0, 0))
        (minimizeLabelFallback ((0, 0) :: [(3, 0)]) 2 0 [] []) = true :=
  ⟨by decide, claim_C6_amended_first_pair_satisfies 0 0 [(3, 0)] 2 0 [] [] (by decide)⟩

/-- C6 counterexample: for the two-pair edge label set about two input bits
and no outputs, the fallback prints `(!i0 & !i1) | ...`; the second pair
`(3, 0)` of the set does NOT satisfy the produced guard (both its variables
are 1, the printed term requires 0, and the ellipsis covers nothing),
refuting "every vector in the original pair set satisfies the produced
guard". -/
theorem claim_C6_counterexample_second_pair_unsatisfied :
    minimizeLabelFallback [(0, 0), (3, 0)] 2 0 [] []
        = Guard.conjEllipsis [(['i', '0'], false), (['i', '1'], false)]
    ∧ renderGuard (minimizeLabelFallback [(0, 0), (3, 0)] 2 0 [] [])
        = "(!i0 & !i1) | ...".toList
    ∧ (3, 0) ∈ [((0 : Nat), (0 : Nat)), (3, 0)]
    ∧ satGuard (envOfVec 2 0 [] [] (3, 0))
        (minimizeLabelFallback [(0, 0), (3, 0)] 2 0 [] []) = false := by
  decide

/-- One full pass of the `while changed` loop of `generate_graphviz`:
for every `(src, dst)` key of `trans_by_edge`, add `dst` when `src` is
already reachable (additions are visible to later keys of the same pass). -/
def reachStep (edges : List (Nat × Nat)) (r : Finset Nat) : Finset Nat :=
  edges.foldl (fun acc e => if e.1 ∈ acc ∧ e.2 ∉ acc then insert e.2 acc else acc) r

theorem reachStep_subset : ∀ (edges : List (Nat × Nat)) (r : Finset Nat), r ⊆ reachStep edges r
  | [], r => Finset.Subset.refl r
  | e :: es, r => by
    have h1 : r ⊆ (if e.1 ∈ r ∧ e.2 ∉ r then insert e.2 r else r) := by
      split
      · exact Finset.subset_insert _ _
      · exact Finset.Subset.refl r
    exact h1.trans (reachStep_subset es _)

theorem reachStep_mem_or : ∀ (edges : List (Nat × Nat)) (r : Finset Nat) (x : Nat),
    x ∈ reachStep edges r → x ∈ r ∨ x ∈ edges.map Prod.snd
  | [], _, _, hx => Or.inl hx
  | e :: es, r, x, hx => by
    rcases reachStep_mem_or es _ x hx with h1 | h1
    · simp only [] at h1
      by_cases hc : e.1 ∈ r ∧ e.2 ∉ r
      · rw [if_pos hc] at h1
        rcases Finset.mem_insert.mp h1 with rfl | hr
        · exact Or.inr (by simp)
        · exact Or.inl hr
      · rw [if_neg hc] at h1
        exact Or.inl h1
    · exact Or.inr (by simp only [List.map_cons, List.mem_cons]; exact Or.inr h1)

theorem reachStep_subset_union (edges : List (Nat × Nat)) (r : Finset Nat) :
    reachStep edges r ⊆ (edges.map Prod.snd).toFinset ∪ r := by
  intro x hx
  rcases reachStep_mem_or edges r x hx with h | h
  · exact Finset.mem_union_right _ h
  · exact Finset.mem_union_left _ (List.mem_toFinset.mpr h)

/-- The `while changed` loop: iterate full passes until a pass adds nothing. -/
def reachLoop (edges : List (Nat × Nat)) (r : Finset Nat) : Finset Nat :=
  if h : reachStep edges r = r then r
  else reachLoop edges (reachStep edges r)
termination_by ((edges.map Prod.snd).toFinset ∪ r).card - r.card
decreasing_by
  have hsub : r ⊆ reachStep edges r := reachStep_subset edges r
  have hss : r ⊂ reachStep edges r :=
    Finset.ssubset_iff_subset_ne.mpr ⟨hsub, fun he => h he.symm⟩
  have h1 : r.card < (reachStep edges r).card := Finset.card_lt_card hss
  have hbound := reachStep_subset_union edges r
  have h2 : (reachStep edges r).card ≤ ((edges.map Prod.snd).toFinset ∪ r).card :=
    Finset.card_le_card hbound
  have hBeq : ((edges.map Prod.snd).toFinset ∪ reachStep edges r)
      = ((edges.map Prod.snd).toFinset ∪ r) := by
    apply Finset.Subset.antisymm
    · intro x hx
      rcases Finset.mem_union.mp hx with hd | hr
      · exact Finset.mem_union_left _ hd
      · exact hbound hr
    · exact Finset.union_subset_union_right hsub
  rw [hBeq]
  omega

/-- The reachable-set computation of `generate_graphviz` (the
`all_states=False` branch): fixpoint from the initial state over the
edge-grouped relation. -/
def computeReachable (ex : ExplicitDfa) : Finset Nat :=
  reachLoop ex.edge_keys {ex.initial_state}

theorem reachLoop_mono (edges : List (Nat × Nat)) (r : Finset Nat) :
    r ⊆ reachLoop edges r := by
  induction r using reachLoop.induct edges with
  | case1 r h => rw [reachLoop, dif_pos h]
  | case2 r h ih => rw [reachLoop, dif_neg h]; exact (reachStep_subset edges r).trans ih

theorem reachFold_pred (edges : List (Nat × Nat)) (init : Nat) :
    ∀ (E : List (Nat × Nat)) (r : Finset Nat),
      (∀ e ∈ E, e ∈ edges) →
      (∀ s ∈ r, s = init ∨ ∃ s' ∈ r, (s', s) ∈ edges) →
      ∀ s ∈ E.foldl (fun acc e => if e.1 ∈ acc ∧ e.2 ∉ acc then insert e.2 acc else acc) r,
        s = init ∨
          ∃ s' ∈ E.foldl (fun acc e => if e.1 ∈ acc ∧ e.2 ∉ acc then insert e.2 acc else acc) r,
            (s', s) ∈ edges := by
  intro E
  induction E with
  | nil => intro r _ hP s hs; exact hP s hs
  | cons e es ih =>
    intro r hE hP
    rw [List.foldl_cons]
    apply ih _ (fun x hx => hE x (List.mem_cons_of_mem _ hx))
    intro s hs
    simp only [] at hs
    by_cases hc : e.1 ∈ r ∧ e.2 ∉ r
    · rw [if_pos hc] at hs
      rcases Finset.mem_insert.mp hs with rfl | hr
      · refine Or.inr ⟨e.1, ?_, ?_⟩
        · simp only [if_pos hc]
          exact Finset.mem_insert_of_mem hc.1
        · have he : e = (e.1, e.2) := rfl
          rw [← he]
          exact hE e (List.mem_cons_self _ _)
      · rcases hP s hr with h0 | ⟨s', hs', hedge⟩
        · exact Or.inl h0
        · refine Or.inr ⟨s', ?_, hedge⟩
          simp only [if_pos hc]
          exact Finset.mem_insert_of_mem hs'
    · rw [if_neg hc] at hs
      rcases hP s hs with h0 | ⟨s', hs', hedge⟩
      · exact Or.inl h0
      · refine Or.inr ⟨s', ?_, hedge⟩
        simp only [if_neg hc]
        exact hs'

theorem reachStep_pred (edges : List (Nat × Nat)) (init : Nat) (r : Finset Nat)
    (hP : ∀ s ∈ r, s = init ∨ ∃ s' ∈ r, (s', s) ∈ edges) :
    ∀ s ∈ reachStep edges r, s = init ∨ ∃ s' ∈ reachStep edges r, (s', s) ∈ edges :=
  reachFold_pred edges init edges r (fun _ he => he) hP

theorem reachLoop_pred (edges : List (Nat × Nat)) (init : Nat) (r : Finset Nat)
    (hP : ∀ s ∈ r, s = init ∨ ∃ s' ∈ r, (s', s) ∈ edges) :
    ∀ s ∈ reachLoop edges r, s = init ∨ ∃ s' ∈ reachLoop edges r, (s', s) ∈ edges := by
  induction r using reachLoop.induct edges with
  | case1 r h =>
    rw [reachLoop, dif_pos h]
    exact hP
  | case2 r h ih =>
    rw [reachLoop, dif_neg h]
    exact ih (reachStep_pred edges init r hP)

/-- C7: every state in the computed reachable set is the initial state or
has a predecessor in the reachable set through an edge of the edge-grouped
relation. -/
theorem claim_C7_reachability_sound (ex : ExplicitDfa) (s : Nat)
    (hs : s ∈ computeReachable ex) :
    s = ex.initial_state
    ∨ ∃ s' ∈ computeReachable ex, (s', s) ∈ ex.edge_keys := by
  have hbase : ∀ t ∈ ({ex.initial_state} : Finset Nat),
      t = ex.initial_state ∨ ∃ t' ∈ ({ex.initial_state} : Finset Nat), (t', t) ∈ ex.edge_keys := by
    intro t ht
    exact Or.inl (Finset.mem_singleton.mp ht)
  exact reachLoop_pred ex.edge_keys ex.initial_state {ex.initial_state} hbase s hs

theorem claim_C7_reachability_sound_witness :
    (buildExplicitDfa wDfa).initial_state ∈ computeReachable (buildExplicitDfa wDfa)
    ∧ ((buildExplicitDfa wDfa).initial_state = (buildExplicitDfa wDfa).initial_state
      ∨ ∃ s' ∈ computeReachable (buildExplicitDfa wDfa),
          (s', (buildExplicitDfa wDfa).initial_state) ∈ (buildExplicitDfa wDfa).edge_keys) :=
  have hmem : (buildExplicitDfa wDfa).initial_state ∈ computeReachable (buildExplicitDfa wDfa) :=
    reachLoop_mono _ _ (Finset.mem_singleton_self _)
  ⟨hmem, claim_C7_reachability_sound (buildExplicitDfa wDfa) _ hmem⟩

/-- The function `check_weak_dfa(explicit_dfa, sccs)`: collect every SCC of size > 1 that
meets both the accepting set and its complement (Python set truthiness =
nonemptiness); the automaton is weak iff none is found. -/
def checkWeakDfa (ex : ExplicitDfa) (sccs : List (Finset Nat)) :
    Bool × List (Finset Nat × Finset Nat × Finset Nat) :=
  let problematic := sccs.filterMap (fun scc =>
    if scc.card ≤ 1 then none
    else
      if scc ∩ ex.accepting_states ≠ ∅ ∧ scc \ ex.accepting_states ≠ ∅ then
        some (scc, scc ∩ ex.accepting_states, scc \ ex.accepting_states)
      else none)
  (problematic.length = 0, problematic)

theorem checkWeakDfa_true_iff (ex : ExplicitDfa) (sccs : List (Finset Nat)) :
    (checkWeakDfa ex sccs).1 = true ↔
      ∀ scc ∈ sccs, ¬(1 < scc.card ∧ (scc ∩ ex.accepting_states).Nonempty ∧
        (scc \ ex.accepting_states).Nonempty) := by
  show decide (List.length _ = 0) = true ↔ _
  rw [decide_eq_true_eq, List.length_eq_zero, List.filterMap_eq_nil]
  apply forall_congr'
  intro scc
  apply imp_congr_right
  intro _
  by_cases hc : scc.card ≤ 1
  · rw [if_pos hc]
    simp only [true_iff]
    rintro ⟨hlt, _, _⟩
    omega
  · rw [if_neg hc]
    by_cases hne : scc ∩ ex.accepting_states ≠ ∅ ∧ scc \ ex.accepting_states ≠ ∅
    · rw [if_pos hne]
      constructor
      · intro h; cases h
      · intro hcon
        exact absurd ⟨by omega, Finset.nonempty_iff_ne_empty.mpr hne.1,
          Finset.nonempty_iff_ne_empty.mpr hne.2⟩ hcon
    · rw [if_neg hne]
      simp only [true_iff]
      rintro ⟨_, h1, h2⟩
      exact hne ⟨Finset.nonempty_iff_ne_empty.mp h1, Finset.nonempty_iff_ne_empty.mp h2⟩

/-- C2: `is_weak` is `false` exactly when some SCC of size greater than one
contains both an accepting and a non-accepting state; equivalently (for any
notion of self-loop whatsoever, since one-state SCCs are always homogeneous),
`is_weak` is `true` exactly when every SCC with more than one state or a
self-loop is homogeneous with respect to acceptance. -/
theorem claim_C2_weakness_sound (ex : ExplicitDfa) (sccs : List (Finset Nat)) :
    ((checkWeakDfa ex sccs).1 = false ↔
      ∃ scc ∈ sccs, 1 < scc.card ∧ (scc ∩ ex.accepting_states).Nonempty ∧
        (scc \ ex.accepting_states).Nonempty)
    ∧ ∀ selfLoop : Finset Nat → Prop,
      ((checkWeakDfa ex sccs).1 = true ↔
        ∀ scc ∈ sccs, (1 < scc.card ∨ selfLoop scc) →
          (scc ⊆ ex.accepting_states ∨ scc ∩ ex.accepting_states = ∅)) := by
  have hkey := checkWeakDfa_true_iff ex sccs
  constructor
  · rw [Bool.eq_false_iff, Ne, hkey]
    constructor
    · intro h
      rcases not_forall.mp h with ⟨scc, hscc⟩
      rcases Classical.not_imp.mp hscc with ⟨hmem, hrest⟩
      exact ⟨scc, hmem, not_not.mp hrest⟩
    · rintro ⟨scc, hmem, hmix⟩ hall
      exact hall scc hmem hmix
  · intro selfLoop
    rw [hkey]
    constructor
    · intro hall scc hmem _
      by_cases hcard : 1 < scc.card
      · have hnm := hall scc hmem
        by_cases hi : (scc ∩ ex.accepting_states).Nonempty
        · left
          have hnr : ¬(scc \ ex.accepting_states).Nonempty := fun hr => hnm ⟨hcard, hi, hr⟩
          exact Finset.sdiff_eq_empty_iff_subset.mp
            (Finset.not_nonempty_iff_eq_empty.mp hnr)
        · exact Or.inr (Finset.not_nonempty_iff_eq_empty.mp hi)
      · by_cases hi : (scc ∩ ex.accepting_states).Nonempty
        · left
          obtain ⟨x, hx⟩ := hi
          intro y hy
          have hxy : y = x := by
            have hx1 := (Finset.mem_inter.mp hx).1
            have hcle : scc.card ≤ 1 := by omega
            exact Finset.card_le_one.mp hcle y hy x hx1
          rw [hxy]
          exact (Finset.mem_inter.mp hx).2
        · exact Or.inr (Finset.not_nonempty_iff_eq_empty.mp hi)
    · intro hall scc hmem
      rintro ⟨hcard, hi, hr⟩
      rcases hall scc hmem (Or.inl hcard) with hsub | hempty
      · obtain ⟨x, hx⟩ := hr
        exact (Finset.mem_sdiff.mp hx).2 (hsub (Finset.mem_sdiff.mp hx).1)
      · obtain ⟨x, hx⟩ := hi
        rw [hempty] at hx
        cases Finset.not_mem_empty x hx

/-- The dictionary slot a recognized `key=value` record writes. Several
distinct keys can denote the same transition-function slot (for example
`trans_func_0` and `trans_func_00` both parse to bit 0). -/
inductive FieldSlot where
  | nsb : FieldSlot
  | ninp : FieldSlot
  | nout : FieldSlot
  | svi : FieldSlot
  | il : FieldSlot
  | ol : FieldSlot
  | tf : Int → FieldSlot
  | acc : FieldSlot
  | initm : FieldSlot
deriving DecidableEq

/-- The slot a key denotes, `none` for unrecognized keys and for
`trans_func_` keys whose bit index does not parse. -/
def slotOfKey (key : Chars) : Option FieldSlot :=
  if key = keyNumStateBits then some .nsb
  else if key = keyNumInputs then some .ninp
  else if key = keyNumOutputs then some .nout
  else if key = keyStateVarIndices then some .svi
  else if key = keyInputLabels then some .il
  else if key = keyOutputLabels then some .ol
  else if transFuncPre.isPrefixOf key then
    match ((splitOnChar '_' key).get? 2).bind parseInt? with
    | none => none
    | some bit => some (.tf bit)
  else if key = keyAcceptingMinterms then some .acc
  else if key = keyInitialMinterm then some .initm
  else none

/-- The slot a whole line writes. -/
def slotOf (rawLine : Chars) : Option FieldSlot :=
  match splitFirstOn '=' (trimChars rawLine) with
  | none => none
  | some (key, _) => slotOfKey key

/-- A parsed record value together with the slot it is written to. -/
inductive SlotVal where
  | nsbV : Int → SlotVal
  | ninpV : Int → SlotVal
  | noutV : Int → SlotVal
  | sviV : List Int → SlotVal
  | ilV : List Chars → SlotVal
  | olV : List Chars → SlotVal
  | tfV : Int → List (Int × Int × Int) → SlotVal
  | accV : List Chars → SlotVal
  | initV : Chars → SlotVal

def slotOfVal : SlotVal → FieldSlot
  | .nsbV _ => .nsb
  | .ninpV _ => .ninp
  | .noutV _ => .nout
  | .sviV _ => .svi
  | .ilV _ => .il
  | .olV _ => .ol
  | .tfV bit _ => .tf bit
  | .accV _ => .acc
  | .initV _ => .initm

/-- Writing one parsed record value into the dictionary. -/
def applySlot (v : SlotVal) (d : SymbolicDfa) : SymbolicDfa :=
  match v with
  | .nsbV n => { d with num_state_bits := n }
  | .ninpV n => { d with num_inputs := n }
  | .noutV n => { d with num_outputs := n }
  | .sviV l => { d with state_var_indices := l }
  | .ilV l => { d with input_labels := l }
  | .olV l => { d with output_labels := l }
  | .tfV bit ms => { d with trans_funcs := updateTransFuncs d.trans_funcs bit ms }
  | .accV l => { d with accepting_minterms := l }
  | .initV m => { d with initial_minterm := m }

theorem applySlot_comm (v w : SlotVal) (hne : slotOfVal v ≠ slotOfVal w) (d : SymbolicDfa) :
    applySlot v (applySlot w d) = applySlot w (applySlot v d) := by
  cases v <;> cases w <;> try rfl
  all_goals try (exact absurd rfl hne)
  rename_i b1 m1 b2 m2
  have hb : b1 ≠ b2 := by
    intro he
    exact hne (by rw [slotOfVal, slotOfVal, he])
  show ({ d with trans_funcs :=
      updateTransFuncs (updateTransFuncs d.trans_funcs b2 m2) b1 m1 } : SymbolicDfa)
    = { d with trans_funcs := updateTransFuncs (updateTransFuncs d.trans_funcs b1 m1) b2 m2 }
  have htf : updateTransFuncs (updateTransFuncs d.trans_funcs b2 m2) b1 m1
      = updateTransFuncs (updateTransFuncs d.trans_funcs b1 m1) b2 m2 := by
    funext b
    unfold updateTransFuncs
    by_cases h1 : b = b1
    · subst h1
      rw [if_pos rfl, if_neg (by exact hb), if_pos rfl]
    · rw [if_neg h1]
      by_cases h2 : b = b2
      · subst h2
        rw [if_pos rfl, if_pos rfl]
      · rw [if_neg h2, if_neg h2, if_neg h1]
  rw [htf]

/-- Every `key=value` record behaves in one of three state-independent ways:
it leaves the state unchanged (unrecognized key, or a recognized collection
key with empty value), it raises (malformed value, or a `trans_func_` key
with unparsable bit - raising regardless of the dictionary contents), or it
writes one parsed value into the one slot its key denotes. -/
theorem parseKeyVal_classify (key val : Chars) :
    (∀ st, parseKeyVal st key val = some st)
    ∨ (∀ st, parseKeyVal st key val = none)
    ∨ (∃ v : SlotVal, slotOfKey key = some (slotOfVal v) ∧
        ∀ st, parseKeyVal st key val = some (st.1, applySlot v st.2)) := by
  by_cases h1 : key = keyNumStateBits
  · cases hpi : parseInt? val with
    | none =>
      refine Or.inr (Or.inl fun st => ?_)
      rw [parseKeyVal, if_pos h1, hpi]
      rfl
    | some n =>
      refine Or.inr (Or.inr ⟨.nsbV n, by rw [slotOfKey, if_pos h1]; rfl, fun st => ?_⟩)
      rw [parseKeyVal, if_pos h1, hpi]
      rfl
  by_cases h2 : key = keyNumInputs
  · cases hpi : parseInt? val with
    | none =>
      refine Or.inr (Or.inl fun st => ?_)
      rw [parseKeyVal, if_neg h1, if_pos h2, hpi]
      rfl
    | some n =>
      refine Or.inr (Or.inr ⟨.ninpV n,
        by rw [slotOfKey, if_neg h1, if_pos h2]; rfl, fun st => ?_⟩)
      rw [parseKeyVal, if_neg h1, if_pos h2, hpi]
      rfl
  by_cases h3 : key = keyNumOutputs
  · cases hpi : parseInt? val with
    | none =>
      refine Or.inr (Or.inl fun st => ?_)
      rw [parseKeyVal, if_neg h1, if_neg h2, if_pos h3, hpi]
      rfl
    | some n =>
      refine Or.inr (Or.inr ⟨.noutV n,
        by rw [slotOfKey, if_neg h1, if_neg h2, if_pos h3]; rfl, fun st => ?_⟩)
      rw [parseKeyVal, if_neg h1, if_neg h2, if_pos h3, hpi]
      rfl
  by_cases h4 : key = keyStateVarIndices
  · by_cases hv : val ≠ []
    · cases hpi : parseIntList? val with
      | none =>
        refine Or.inr (Or.inl fun st => ?_)
        rw [parseKeyVal, if_neg h1, if_neg h2, if_neg h3, if_pos h4, if_pos hv, hpi]
        rfl
      | some l =>
        refine Or.inr (Or.inr ⟨.sviV l,
          by rw [slotOfKey, if_neg h1, if_neg h2, if_neg h3, if_pos h4]; rfl, fun st => ?_⟩)
        rw [parseKeyVal, if_neg h1, if_neg h2, if_neg h3, if_pos h4, if_pos hv, hpi]
        rfl
    · refine Or.inl fun st => ?_
      rw [parseKeyVal, if_neg h1, if_neg h2, if_neg h3, if_pos h4, if_neg hv]
  by_cases h5 : key = keyInputLabels
  · by_cases hv : val ≠ []
    · refine Or.inr (Or.inr ⟨.ilV (splitOnChar ',' val),
        by rw [slotOfKey, if_neg h1, if_neg h2, if_neg h3, if_neg h4, if_pos h5]; rfl,
        fun st => ?_⟩)
      rw [parseKeyVal, if_neg h1, if_neg h2, if_neg h3, if_neg h4, if_pos h5, if_pos hv]
      rfl
    · refine Or.inl fun st => ?_
      rw [parseKeyVal, if_neg h1, if_neg h2, if_neg h3, if_neg h4, if_pos h5, if_neg hv]
  by_cases h6 : key = keyOutputLabels
  · by_cases hv : val ≠ []
    · refine Or.inr (Or.inr ⟨.olV (splitOnChar ',' val),
        by rw [slotOfKey, if_neg h1, if_neg h2, if_neg h3, if_neg h4, if_neg h5, if_pos h6]
           rfl,
        fun st => ?_⟩)
      rw [parseKeyVal, if_neg h1, if_neg h2, if_neg h3, if_neg h4, if_neg h5, if_pos h6,
        if_pos hv]
      rfl
    · refine Or.inl fun st => ?_
      rw [parseKeyVal, if_neg h1, if_neg h2, if_neg h3, if_neg h4, if_neg h5, if_pos h6,
        if_neg hv]
  by_cases h7 : transFuncPre.isPrefixOf key
  · cases hb : ((splitOnChar '_' key).get? 2).bind parseInt? with
    | none =>
      refine Or.inr (Or.inl fun st => ?_)
      rw [parseKeyVal, if_neg h1, if_neg h2, if_neg h3, if_neg h4, if_neg h5, if_neg h6,
        if_pos h7, parseTransFunc, hb]
    | some bit =>
      by_cases hv : val ≠ []
      · cases hpt : parseTripleList? val with
        | none =>
          refine Or.inr (Or.inl fun st => ?_)
          rw [parseKeyVal, if_neg h1, if_neg h2, if_neg h3, if_neg h4, if_neg h5, if_neg h6,
            if_pos h7, parseTransFunc, hb]
          show (if val ≠ [] then (parseTripleList? val).map _ else _) = none
          rw [if_pos hv, hpt]
          rfl
        | some ms =>
          refine Or.inr (Or.inr ⟨.tfV bit ms, ?_, fun st => ?_⟩)
          · rw [slotOfKey, if_neg h1, if_neg h2, if_neg h3, if_neg h4, if_neg h5, if_neg h6,
              if_pos h7, hb]
            rfl
          · rw [parseKeyVal, if_neg h1, if_neg h2, if_neg h3, if_neg h4, if_neg h5, if_neg h6,
              if_pos h7, parseTransFunc, hb]
            show (if val ≠ [] then (parseTripleList? val).map _ else _) = _
            rw [if_pos hv, hpt]
            rfl
      · refine Or.inr (Or.inr ⟨.tfV bit [], ?_, fun st => ?_⟩)
        · rw [slotOfKey, if_neg h1, if_neg h2, if_neg h3, if_neg h4, if_neg h5, if_neg h6,
            if_pos h7, hb]
          rfl
        · rw [parseKeyVal, if_neg h1, if_neg h2, if_neg h3, if_neg h4, if_neg h5, if_neg h6,
            if_pos h7, parseTransFunc, hb]
          show (if val ≠ [] then (parseTripleList? val).map _ else _) = _
          rw [if_neg hv]
          rfl
  by_cases h8 : key = keyAcceptingMinterms
  · by_cases hv : val ≠ []
    · refine Or.inr (Or.inr ⟨.accV (splitOnChar ';' val), ?_, fun st => ?_⟩)
      · rw [slotOfKey, if_neg h1, if_neg h2, if_neg h3, if_neg h4, if_neg h5, if_neg h6,
          if_neg h7, if_pos h8]
        rfl
      · rw [parseKeyVal, if_neg h1, if_neg h2, if_neg h3, if_neg h4, if_neg h5, if_neg h6,
          if_neg h7, if_pos h8, if_pos hv]
        rfl
    · refine Or.inl fun st => ?_
      rw [parseKeyVal, if_neg h1, if_neg h2, if_neg h3, if_neg h4, if_neg h5, if_neg h6,
        if_neg h7, if_pos h8, if_neg hv]
  by_cases h9 : key = keyInitialMinterm
  · refine Or.inr (Or.inr ⟨.initV val, ?_, fun st => ?_⟩)
    · rw [slotOfKey, if_neg h1, if_neg h2, if_neg h3, if_neg h4, if_neg h5, if_neg h6,
        if_neg h7, if_neg h8, if_pos h9]
      rfl
    · rw [parseKeyVal, if_neg h1, if_neg h2, if_neg h3, if_neg h4, if_neg h5, if_neg h6,
        if_neg h7, if_neg h8, if_pos h9]
      rfl
  refine Or.inl fun st => ?_
  rw [parseKeyVal, if_neg h1, if_neg h2, if_neg h3, if_neg h4, if_neg h5, if_neg h6,
    if_neg h7, if_neg h8, if_neg h9]

/-- Any non-sentinel line is a no-op while `in_dump` is false. -/
theorem parseLine_skip_false (x : Chars)
    (hx1 : trimChars x ≠ pydfaBegin) (hx2 : trimChars x ≠ pydfaEnd) (d : SymbolicDfa) :
    parseLine (false, d) x = some (false, d) := by
  unfold parseLine
  rw [if_neg hx1, if_neg hx2, if_pos rfl]

/-- Inside the dump block a non-sentinel line either raises (independently
of the dictionary) or maps the dictionary through a fixed function: the
identity, or a single-slot write. -/
theorem parseLine_true_eff (x : Chars)
    (hx1 : trimChars x ≠ pydfaBegin) (hx2 : trimChars x ≠ pydfaEnd) :
    (∀ d, parseLine (true, d) x = none)
    ∨ (∃ f : SymbolicDfa → SymbolicDfa,
        (∀ d, parseLine (true, d) x = some (true, f d)) ∧
        (f = id ∨ ∃ v : SlotVal, slotOf x = some (slotOfVal v) ∧ f = applySlot v)) := by
  have hbody : ∀ d, parseLine (true, d) x =
      (match splitFirstOn '=' (trimChars x) with
        | none => some (true, d)
        | some (key, val) => parseKeyVal (true, d) key val) := by
    intro d
    unfold parseLine
    rw [if_neg hx1, if_neg hx2, if_neg (by simp : ¬(true = false))]
  cases hsp : splitFirstOn '=' (trimChars x) with
  | none =>
    refine Or.inr ⟨id, fun d => ?_, Or.inl rfl⟩
    rw [hbody, hsp]
    rfl
  | some kv =>
    obtain ⟨key, val⟩ := kv
    have hslot : slotOf x = slotOfKey key := by rw [slotOf, hsp]
    rcases parseKeyVal_classify key val with hskip | hfail | ⟨v, hvs, hupd⟩
    · refine Or.inr ⟨id, fun d => ?_, Or.inl rfl⟩
      rw [hbody, hsp]
      exact hskip (true, d)
    · refine Or.inl fun d => ?_
      rw [hbody, hsp]
      exact hfail (true, d)
    · refine Or.inr ⟨applySlot v, fun d => ?_, Or.inr ⟨v, by rw [hslot]; exact hvs, rfl⟩⟩
      rw [hbody, hsp]
      exact hupd (true, d)

/-- One monadic step of the line fold (`foldlM` unfolded over `Option`). -/
def stepO (z : Option (Bool × SymbolicDfa)) (line : Chars) : Option (Bool × SymbolicDfa) :=
  z >>= fun st => parseLine st line

theorem stepO_comm (x y : Chars)
    (hx1 : trimChars x ≠ pydfaBegin) (hx2 : trimChars x ≠ pydfaEnd)
    (hy1 : trimChars y ≠ pydfaBegin) (hy2 : trimChars y ≠ pydfaEnd)
    (hxy : x = y ∨ ∀ s : FieldSlot, ¬(slotOf x = some s ∧ slotOf y = some s)) :
    ∀ z : Option (Bool × SymbolicDfa), stepO (stepO z x) y = stepO (stepO z y) x := by
  rcases hxy with rfl | hdist
  · intro z; rfl
  intro z
  cases z with
  | none => rfl
  | some st =>
    obtain ⟨b, d⟩ := st
    cases b with
    | false =>
      show stepO (parseLine (false, d) x) y = stepO (parseLine (false, d) y) x
      rw [parseLine_skip_false x hx1 hx2 d, parseLine_skip_false y hy1 hy2 d]
      show parseLine (false, d) y = parseLine (false, d) x
      rw [parseLine_skip_false x hx1 hx2 d, parseLine_skip_false y hy1 hy2 d]
    | true =>
      show stepO (parseLine (true, d) x) y = stepO (parseLine (true, d) y) x
      rcases parseLine_true_eff x hx1 hx2 with hxf | ⟨f, hxu, hfc⟩ <;>
        rcases parseLine_true_eff y hy1 hy2 with hyf | ⟨g, hyu, hgc⟩
      · rw [hxf d, hyf d]
        rfl
      · rw [hxf d, hyu d]
        show (none : Option (Bool × SymbolicDfa)) = parseLine (true, g d) x
        rw [hxf (g d)]
      · rw [hxu d, hyf d]
        show parseLine (true, f d) y = (none : Option (Bool × SymbolicDfa))
        rw [hyf (f d)]
      · rw [hxu d, hyu d]
        show parseLine (true, f d) y = parseLine (true, g d) x
        rw [hyu (f d), hxu (g d)]
        have hcomm : g (f d) = f (g d) := by
          rcases hfc with rfl | ⟨vx, hvx, rfl⟩
          · rfl
          · rcases hgc with rfl | ⟨vy, hvy, rfl⟩
            · rfl
            · have hne : slotOfVal vy ≠ slotOfVal vx := by
                intro he
                exact hdist (slotOfVal vx) ⟨hvx, by rw [hvy, he]⟩
              exact applySlot_comm vy vx hne d
        rw [hcomm]

/-- C9 (amended): parsing is order-insensitive for records whose derived
dictionary SLOTS are pairwise distinct. (Distinct raw keys are not enough:
several keys denote the same transition-function slot, e.g. `trans_func_0`
and `trans_func_00` both write bit 0, and swapping them changes the
overwrite order and hence the result.) -/
theorem claim_C9_amended_permutation_invariance (recs recs' : List Chars)
    (hperm : recs.Perm recs')
    (hrec : ∀ x ∈ recs, trimChars x ≠ pydfaBegin ∧ trimChars x ≠ pydfaEnd)
    (hslots : ∀ x ∈ recs, ∀ y ∈ recs, ∀ s : FieldSlot,
        slotOf x = some s → slotOf y = some s → x = y) :
    parseDfaDump (pydfaBegin :: (recs ++ [pydfaEnd]))
      = parseDfaDump (pydfaBegin :: (recs' ++ [pydfaEnd])) := by
  unfold parseDfaDump
  have hconv : ∀ (l : List Chars) (st : Bool × SymbolicDfa),
      l.foldlM parseLine st = l.foldl stepO (some st) := by
    intro l st
    rw [List.foldlM_eq_foldl]
    rfl
  rw [List.foldlM_cons, List.foldlM_cons]
  have hbegin : parseLine (false, initDfa) pydfaBegin = some (true, initDfa) := rfl
  rw [hbegin]
  show (((recs ++ [pydfaEnd]).foldlM parseLine (true, initDfa)).map (·.2))
    = (((recs' ++ [pydfaEnd]).foldlM parseLine (true, initDfa)).map (·.2))
  rw [hconv, hconv, List.foldl_append, List.foldl_append]
  have hmid : recs.foldl stepO (some (true, initDfa))
      = recs'.foldl stepO (some (true, initDfa)) := by
    apply hperm.foldl_eq'
    intro a ha b hb z
    refine stepO_comm a b (hrec a ha).1 (hrec a ha).2 (hrec b hb).1 (hrec b hb).2 ?_ z
    by_cases hab : a = b
    · exact Or.inl hab
    · refine Or.inr fun s hs => hab (hslots a ha b hb s hs.1 hs.2)
  rw [hmid]

/-- The two C9 inputs: distinct keys `trans_func_0` and `trans_func_00`,
each occurring once, in the two orders. -/
def c9LinesA : List Chars :=
  [pydfaBegin, "trans_func_0=1,0,0".toList, "trans_func_00=3,0,0".toList, pydfaEnd]

def c9LinesB : List Chars :=
  [pydfaBegin, "trans_func_00=3,0,0".toList, "trans_func_0=1,0,0".toList, pydfaEnd]

theorem claim_C9_amended_permutation_invariance_witness :
    ((["num_state_bits=1".toList, "num_inputs=0".toList] : List Chars).Perm
      ["num_inputs=0".toList, "num_state_bits=1".toList])
    ∧ parseDfaDump (pydfaBegin ::
        ((["num_state_bits=1".toList, "num_inputs=0".toList] : List Chars) ++ [pydfaEnd]))
      = parseDfaDump (pydfaBegin ::
        ((["num_inputs=0".toList, "num_state_bits=1".toList] : List Chars) ++ [pydfaEnd])) :=
  ⟨List.Perm.swap _ _ _,
    claim_C9_amended_permutation_invariance _ _ (List.Perm.swap _ _ _)
      (by decide) (by decide)⟩

/-- C9 counterexample: the key=value records of the two inputs are
permutations of each other, with each (distinct) key occurring exactly once,
yet the parses differ: both keys write transition-function bit 0, so the
later record wins and swapping them changes `trans_funcs[0]`. -/
theorem claim_C9_counterexample_key_aliasing :
    c9LinesA.Perm c9LinesB
    ∧ ("trans_func_0=1,0,0".toList ≠ "trans_func_00=3,0,0".toList)
    ∧ (parseDfaDump c9LinesA).map (fun d => d.trans_funcs 0) = some (some [(3, 0, 0)])
    ∧ (parseDfaDump c9LinesB).map (fun d => d.trans_funcs 0) = some (some [(1, 0, 0)])
    ∧ parseDfaDump c9LinesA ≠ parseDfaDump c9LinesB := by
  refine ⟨List.Perm.cons _ (List.Perm.swap _ _ _), by decide, by decide, by decide, ?_⟩
  intro h
  have h2 := congrArg (Option.map (fun d => d.trans_funcs 0)) h
  rw [show (parseDfaDump c9LinesA).map (fun d => d.trans_funcs 0)
      = some (some [(3, 0, 0)]) from by decide,
    show (parseDfaDump c9LinesB).map (fun d => d.trans_funcs 0)
      = some (some [(1, 0, 0)]) from by decide] at h2
  exact absurd h2 (by decide)

set_option maxHeartbeats 1000000

/-! ### C4: `compute_sccs` (Tarjan's algorithm, lines 244-286)

The Python function receives `explicit_dfa['trans_by_edge']` (we use its key
list `edge_keys`) and a set `reachable` of states.  It builds the successor
graph restricted to `reachable`, then runs the recursive Tarjan algorithm
with mutable `index_counter`, `stack`, `lowlinks`, `index`, `on_stack`,
`sccs`.  Python set iteration order is unspecified; we iterate sets in
ascending order (`Finset.sort`).  Python's unbounded recursion is modelled
with explicit fuel; `computeSccs` supplies enough fuel and we prove the
result is always `some`. -/

/-- The `graph` dictionary: for each `src`, the set of `dst` with `(src, dst)` a
`trans_by_edge` key and both endpoints in `reachable`. -/
def sccGraph (edgeKeys : List (Nat × Nat)) (reachable : Finset Nat) :
    Nat → Finset Nat := fun v =>
  ((edgeKeys.filter (fun e =>
      e.1 = v ∧ e.1 ∈ reachable ∧ e.2 ∈ reachable)).map Prod.snd).toFinset

/-- The mutable state of `compute_sccs`: `index_counter`, `stack`,
`lowlinks`, `index`, `on_stack` (dict with default `False` via
`.get(w, False)`), and the accumulated `sccs` list. -/
structure TarjanSt where
  index_counter : Nat
  stack : List Nat
  lowlinks : Nat → Option Nat
  index : Nat → Option Nat
  on_stack : Nat → Bool
  sccs : List (Finset Nat)

/-- The `while True: w = stack.pop(); on_stack[w] = False; scc.append(w);
if w == v: break` loop closing an SCC.  Returns the remaining stack, the
updated `on_stack` and the collected `scc` list; `none` models the
`IndexError` Python would raise on popping an empty stack. -/
def popScc (v : Nat) : List Nat → (Nat → Bool) → List Nat →
    Option (List Nat × (Nat → Bool) × List Nat)
  | [], _, _ => none
  | w :: rest, onS, acc =>
    let onS' := fun u => if u = w then false else onS u
    if w = v then some (rest, onS', w :: acc) else popScc v rest onS' (w :: acc)

/-- The tail of `strongconnect` after the successor loop:
`if lowlinks[v] == index[v]:` pop the SCC and append `set(scc)` to `sccs`.
`none` models a `KeyError` on the dictionary reads. -/
def finishV (v : Nat) (st : TarjanSt) : Option TarjanSt :=
  match st.lowlinks v, st.index v with
  | some l, some i =>
    if l = i then
      match popScc v st.stack st.on_stack [] with
      | none => none
      | some (rest, onS, scc) =>
        some { st with stack := rest, on_stack := onS,
                       sccs := st.sccs ++ [scc.toFinset] }
    else some st
  | _, _ => none

/-- The `for w in graph.get(v, [])` loop of `strongconnect`: recurse on
unvisited successors and merge lowlinks, or merge `index[w]` for successors
on the stack.  `recur` is the recursive call at one less fuel. -/
def updLow (v : Nat) (x : Nat) (st : TarjanSt) : TarjanSt :=
  { st with lowlinks := fun u => if u = v then some x else st.lowlinks u }

def visitLoop (recur : Nat → TarjanSt → Option TarjanSt) (v : Nat) :
    List Nat → TarjanSt → Option TarjanSt
  | [], st => some st
  | w :: ws, st =>
    match st.index w with
    | none =>
      match recur w st with
      | none => none
      | some st' =>
        match st'.lowlinks v, st'.lowlinks w with
        | some lv, some lw => visitLoop recur v ws (updLow v (min lv lw) st')
        | _, _ => none
    | some iw =>
      if st.on_stack w then
        match st.lowlinks v with
        | some lv => visitLoop recur v ws (updLow v (min lv iw) st)
        | none => none
      else visitLoop recur v ws st

/-- The push performed at the head of `strongconnect(v)`: set `index[v] = lowlinks[v] = index_counter`,
increment the counter, push `v`, mark it on-stack, process the successors,
then close the SCC if `v` is a root. -/
def pushSt (v : Nat) (st : TarjanSt) : TarjanSt :=
  { index_counter := st.index_counter + 1
    stack := v :: st.stack
    lowlinks := fun u => if u = v then some st.index_counter else st.lowlinks u
    index := fun u => if u = v then some st.index_counter else st.index u
    on_stack := fun u => if u = v then true else st.on_stack u
    sccs := st.sccs }

def strongconnect (g : Nat → Finset Nat) : Nat → Nat → TarjanSt → Option TarjanSt
  | 0, _, _ => none
  | fuel + 1, v, st =>
    match visitLoop (strongconnect g fuel) v ((g v).sort (· ≤ ·)) (pushSt v st) with
    | none => none
    | some st2 => finishV v st2

/-- The top-level `for v in reachable: if v not in index: strongconnect(v)`
loop. -/
def tarjanMain (g : Nat → Finset Nat) (fuel : Nat) :
    List Nat → TarjanSt → Option TarjanSt
  | [], st => some st
  | v :: vs, st =>
    match st.index v with
    | none =>
      match strongconnect g fuel v st with
      | none => none
      | some st' => tarjanMain g fuel vs st'
    | some _ => tarjanMain g fuel vs st

/-- The initial Tarjan state. -/
def tarjanInit : TarjanSt :=
  { index_counter := 0, stack := [], lowlinks := fun _ => none,
    index := fun _ => none, on_stack := fun _ => false, sccs := [] }

/-- The function `compute_sccs(explicit_dfa, reachable)`: build the restricted graph and
run Tarjan over the states of `reachable` (in ascending order), returning
the list of SCC sets. -/
def computeSccs (edgeKeys : List (Nat × Nat)) (reachable : Finset Nat) :
    Option (List (Finset Nat)) :=
  (tarjanMain (sccGraph edgeKeys reachable) (reachable.card + 1)
      (reachable.sort (· ≤ ·)) tarjanInit).map TarjanSt.sccs

/-- Reachability in a successor graph `g`. -/
def GReach (g : Nat → Finset Nat) (a b : Nat) : Prop :=
  Relation.ReflTransGen (fun x y => y ∈ g x) a b

/-- Mutual reachability. -/
def InSameScc (g : Nat → Finset Nat) (a b : Nat) : Prop :=
  GReach g a b ∧ GReach g b a

/-- One step of the transition-edge relation confined to the state set `S`:
`(a, b)` is a `trans_by_edge` key and both endpoints lie in `S`. -/
def EdgeWithin (edgeKeys : List (Nat × Nat)) (S : Finset Nat) (a b : Nat) :
    Prop := (a, b) ∈ edgeKeys ∧ a ∈ S ∧ b ∈ S

/-- Reachability via automaton edges confined to `S`. -/
def ReachWithin (edgeKeys : List (Nat × Nat)) (S : Finset Nat) (a b : Nat) :
    Prop := Relation.ReflTransGen (EdgeWithin edgeKeys S) a b

/-- The index of `u` as a plain natural (0 when unset); only used on
indexed vertices. -/
def idxN (st : TarjanSt) (u : Nat) : Nat := (st.index u).getD 0

theorem GReach.refl {g : Nat → Finset Nat} {a : Nat} : GReach g a a :=
  Relation.ReflTransGen.refl

theorem GReach.single {g : Nat → Finset Nat} {a b : Nat} (h : b ∈ g a) :
    GReach g a b := Relation.ReflTransGen.single h

theorem GReach.trans {g : Nat → Finset Nat} {a b c : Nat}
    (h1 : GReach g a b) (h2 : GReach g b c) : GReach g a c :=
  Relation.ReflTransGen.trans h1 h2

theorem GReach.tail {g : Nat → Finset Nat} {a b c : Nat}
    (h1 : GReach g a b) (h2 : c ∈ g b) : GReach g a c :=
  Relation.ReflTransGen.tail h1 h2

theorem GReach.head {g : Nat → Finset Nat} {a b c : Nat}
    (h1 : b ∈ g a) (h2 : GReach g b c) : GReach g a c :=
  Relation.ReflTransGen.head h1 h2

/-- The state invariant of Tarjan's algorithm maintained by
`strongconnect`. -/
structure TInv (g : Nat → Finset Nat) (V : Finset Nat) (st : TarjanSt) :
    Prop where
  nodup : st.stack.Nodup
  onstack_iff : ∀ u, st.on_stack u = true ↔ u ∈ st.stack
  dom : ∀ u, (st.index u).isSome ↔ (st.lowlinks u).isSome
  stack_indexed : ∀ u ∈ st.stack, (st.index u).isSome
  index_lt : ∀ u i, st.index u = some i → i < st.index_counter
  index_inj : ∀ u w i, st.index u = some i → st.index w = some i → u = w
  indexed_V : ∀ u, (st.index u).isSome → u ∈ V
  stack_sorted : st.stack.Pairwise (fun a b => idxN st b < idxN st a)
  low_le : ∀ u l, st.lowlinks u = some l → ∀ i, st.index u = some i → l ≤ i
  low_witness : ∀ u ∈ st.stack, ∀ l, st.lowlinks u = some l →
      ∃ z ∈ st.stack, st.index z = some l ∧ GReach g u z
  blacks_iff : ∀ u, ((st.index u).isSome ∧ st.on_stack u = false) ↔
      ∃ S ∈ st.sccs, u ∈ S
  sccs_disj : st.sccs.Pairwise (fun S T => ∀ a ∈ S, a ∉ T)
  sccs_closed : ∀ S ∈ st.sccs, ∀ a ∈ S,
      (∀ b ∈ S, InSameScc g a b) ∧ (∀ b, InSameScc g a b → b ∈ S)

/-- Running `popScc` on a stack `pre ++ v :: old` with `v ∉ pre` pops exactly
`pre` and `v`, collecting them as the SCC. -/
theorem popScc_eq (v : Nat) : ∀ (pre : List Nat) (old : List Nat)
    (onS : Nat → Bool) (acc : List Nat), v ∉ pre →
    ∃ onS', popScc v (pre ++ v :: old) onS acc
        = some (old, onS', v :: (pre.reverse ++ acc))
      ∧ ∀ u, onS' u = if u = v ∨ u ∈ pre then false else onS u
  | [], old, onS, acc, _ => by
    refine ⟨fun u => if u = v then false else onS u, by simp [popScc], ?_⟩
    intro u
    by_cases h : u = v <;> simp [h]
  | w :: pre, old, onS, acc, hv => by
    have hwv : w ≠ v := fun h => hv (h ▸ List.mem_cons_self w pre)
    have hv' : v ∉ pre := fun h => hv (List.mem_cons_of_mem w h)
    obtain ⟨onS', heq, honS⟩ := popScc_eq v pre old
      (fun u => if u = w then false else onS u) (w :: acc) hv'
    refine ⟨onS', ?_, ?_⟩
    · rw [List.cons_append, popScc, if_neg hwv, heq]
      simp
    · intro u
      rw [honS u]
      by_cases huv : u = v
      · simp [huv]
      · by_cases huw : u = w <;> simp [huv, huw]

/-- A finite list on which every element sees a strictly `f`-smaller
element is empty. -/
theorem no_min_descent (l : List Nat) (f : Nat → Nat)
    (h : ∀ u ∈ l, ∃ z ∈ l, f z < f u) : l = [] := by
  have key : ∀ n u, u ∈ l → f u < n → False := by
    intro n
    induction n with
    | zero => exact fun u _ h2 => absurd h2 (Nat.not_lt_zero _)
    | succ n ih =>
      intro u hu _
      obtain ⟨z, hz, hlt⟩ := h u hu
      obtain ⟨z', hz', hlt'⟩ := h z hz
      exact ih z' hz' (by omega)
  cases l with
  | nil => rfl
  | cons a l' =>
      exact (key (f a + 1) a (List.mem_cons_self a l') (Nat.lt_succ_self _)).elim

/-- Chain argument: if every stack vertex with index above `n₀` has a
lowlink strictly below its own index, then (with `v` at index `n₀` and the
below-`n₀` part of the stack reaching `v`) every stack vertex reaches `v`. -/
theorem stack_reach_chain {g : Nat → Finset Nat} {V : Finset Nat}
    {st : TarjanSt} (hinv : TInv g V st) {v n₀ : Nat}
    (hv : st.index v = some n₀)
    (hlow : ∀ u ∈ st.stack, ∀ i, st.index u = some i → n₀ < i →
      ∃ l, st.lowlinks u = some l ∧ l < i)
    (hbase : ∀ u ∈ st.stack, ∀ i, st.index u = some i → i < n₀ → GReach g u v) :
    ∀ u ∈ st.stack, GReach g u v := by
  have key : ∀ n, ∀ u ∈ st.stack, ∀ i, st.index u = some i → i < n → GReach g u v := by
    intro n
    induction n with
    | zero => exact fun u _ i _ h2 => absurd h2 (Nat.not_lt_zero _)
    | succ n ih =>
      intro u hu i hi _
      rcases Nat.lt_trichotomy i n₀ with hc | hc | hc
      · exact hbase u hu i hi hc
      · have : u = v := hinv.index_inj u v i hi (hc ▸ hv)
        exact this ▸ GReach.refl
      · obtain ⟨l, hl, hlt⟩ := hlow u hu i hi hc
        obtain ⟨z, hz, hzi, hzr⟩ := hinv.low_witness u hu l hl
        have hzn : l < n := by
          have := hinv.index_lt u i hi
          omega
        exact GReach.trans hzr (ih z hz l hzi hzn)
  intro u hu
  obtain ⟨i, hi⟩ := Option.isSome_iff_exists.mp (hinv.stack_indexed u hu)
  exact key (i + 1) u hu i hi (Nat.lt_succ_self _)

/-- Any two members of a set that is closed under mutual reachability are
connected by a path staying inside the set. -/
theorem reachWithin_of_closed {g : Nat → Finset Nat} {S : Finset Nat}
    (hcl : ∀ a ∈ S, (∀ b ∈ S, InSameScc g a b) ∧ (∀ b, InSameScc g a b → b ∈ S)) :
    ∀ a ∈ S, ∀ b ∈ S,
      Relation.ReflTransGen (fun x y => y ∈ g x ∧ x ∈ S ∧ y ∈ S) a b := by
  intro a ha b hb
  have hba : GReach g b a := ((hcl a ha).1 b hb).2
  have hab : GReach g a b := ((hcl a ha).1 b hb).1
  have key : ∀ x, GReach g a x → GReach g x b →
      Relation.ReflTransGen (fun x y => y ∈ g x ∧ x ∈ S ∧ y ∈ S) a x := by
    intro x hax
    induction hax with
    | refl => exact fun _ => Relation.ReflTransGen.refl
    | @tail x y hax hxy ih =>
      intro hyb
      have hxb : GReach g x b := GReach.head hxy hyb
      have hwithin := ih hxb
      have hxS : x ∈ S := (hcl a ha).2 x ⟨hax, GReach.trans hxb hba⟩
      have hyS : y ∈ S :=
        (hcl a ha).2 y ⟨GReach.tail hax hxy, GReach.trans hyb hba⟩
      exact hwithin.tail ⟨hxy, hxS, hyS⟩
  exact key b hab GReach.refl

/-- Facts maintained for the vertices pushed (and kept on the stack) during
the processing of `v`, whose index is `n₀`: indices at least `n₀`, strict
lowlinks with the successor-exploration and lowlink-merge history
(`elow`, `succ_idx`, `mprop`), reachability from `v` and the lowlink
`min`-propagation (`low_ge`). -/
structure PreFacts (g : Nat → Finset Nat) (v : Nat) (n₀ : Nat)
    (st : TarjanSt) (pre : List Nat) : Prop where
  idx_ge : ∀ u ∈ pre, ∀ i, st.index u = some i → n₀ ≤ i
  elow : ∀ u ∈ pre, ∃ l i, st.lowlinks u = some l ∧ st.index u = some i ∧ l < i
  succ_idx : ∀ u ∈ pre, ∀ w ∈ g u, (st.index w).isSome
  mprop : ∀ u ∈ pre, ∀ w ∈ g u, w ∈ st.stack → ∀ iw iu,
      st.index w = some iw → st.index u = some iu → iw < iu →
      ∃ lu, st.lowlinks u = some lu ∧ lu ≤ iw
  reach_from : ∀ u ∈ pre, GReach g v u
  low_ge : ∀ u ∈ pre, ∀ lv, st.lowlinks v = some lv →
      ∀ lu, st.lowlinks u = some lu → lv ≤ lu

/-- Postcondition of `strongconnect g fuel v st = some st'`. -/
structure SCPost (g : Nat → Finset Nat) (V : Finset Nat) (v : Nat)
    (st st' : TarjanSt) : Prop where
  inv : TInv g V st'
  mono : ∀ u i, st.index u = some i → st'.index u = some i
  counter_lt : st.index_counter < st'.index_counter
  v_idx : st'.index v = some st.index_counter
  old_low : ∀ u, (st.index u).isSome → st'.lowlinks u = st.lowlinks u
  perm_stack : ∀ u, (st.index u).isSome → st'.on_stack u = true →
      st.on_stack u = true
  sccs_ext : ∃ ns, st'.sccs = st.sccs ++ ns
  rest : (st'.stack = st.stack ∧ st'.on_stack v = false ∧
          st'.lowlinks v = some st.index_counter) ∨
         (∃ pre, st'.stack = pre ++ st.stack ∧ v ∈ pre ∧
            (∀ u ∈ pre, st.index u = none) ∧
            PreFacts g v st.index_counter st' pre)

/-- Loop invariant of the successor loop of `strongconnect v`, relative to
the entry state `st0` and the processed successors `done`. -/
structure LoopInv (g : Nat → Finset Nat) (V : Finset Nat) (v : Nat)
    (st0 : TarjanSt) (done : List Nat) (st : TarjanSt) : Prop where
  inv : TInv g V st
  mono0 : ∀ u i, st0.index u = some i → st.index u = some i
  counter_gt : st0.index_counter < st.index_counter
  v_idx : st.index v = some st0.index_counter
  old_low : ∀ u, (st0.index u).isSome → st.lowlinks u = st0.lowlinks u
  perm_stack : ∀ u, (st0.index u).isSome → st.on_stack u = true →
      st0.on_stack u = true
  shape : ∃ pre, st.stack = pre ++ v :: st0.stack ∧
      (∀ u ∈ pre, st0.index u = none ∧ u ≠ v) ∧
      PreFacts g v st0.index_counter st pre
  sccs_ext : ∃ ns, st.sccs = st0.sccs ++ ns
  reach_stack : ∀ u ∈ st.stack, GReach g u v
  done_idx : ∀ w ∈ done, (st.index w).isSome
  done_low : ∀ w ∈ done, w ∈ st.stack → ∀ iw, st.index w = some iw →
      iw < st0.index_counter →
      ∃ lv, st.lowlinks v = some lv ∧ lv ≤ iw

theorem pushSt_loopInv {g : Nat → Finset Nat} {V : Finset Nat} {v : Nat}
    {st0 : TarjanSt} (hinv : TInv g V st0) (hvV : v ∈ V)
    (hv0 : st0.index v = none)
    (hacc : ∀ u ∈ st0.stack, GReach g u v) :
    LoopInv g V v st0 [] (pushSt v st0) := by
  have hvstk : v ∉ st0.stack := fun h => by
    have := hinv.stack_indexed v h
    rw [hv0] at this
    exact absurd this (by simp)
  have hidx : ∀ u, (pushSt v st0).index u
      = if u = v then some st0.index_counter else st0.index u := fun u => rfl
  have hlow : ∀ u, (pushSt v st0).lowlinks u
      = if u = v then some st0.index_counter else st0.lowlinks u := fun u => rfl
  have hons : ∀ u, (pushSt v st0).on_stack u
      = if u = v then true else st0.on_stack u := fun u => rfl
  have hstk : (pushSt v st0).stack = v :: st0.stack := rfl
  have hctr : (pushSt v st0).index_counter = st0.index_counter + 1 := rfl
  have hsccs : (pushSt v st0).sccs = st0.sccs := rfl
  have hidxlt : ∀ u i, st0.index u = some i → i < st0.index_counter := by
    intro u i h
    exact hinv.index_lt u i h
  refine ⟨?_, ?_, ?_, ?_, ?_, ?_, ?_, ?_, ?_, ?_, ?_⟩
  · -- TInv
    refine ⟨?_, ?_, ?_, ?_, ?_, ?_, ?_, ?_, ?_, ?_, ?_, ?_, ?_⟩
    · rw [hstk]
      exact List.nodup_cons.mpr ⟨hvstk, hinv.nodup⟩
    · intro u
      rw [hons, hstk]
      by_cases h : u = v
      · simp [h]
      · simp only [if_neg h, List.mem_cons]
        rw [hinv.onstack_iff u]
        exact ⟨Or.inr, fun hc => hc.elim (fun he => absurd he h) id⟩
    · intro u
      rw [hidx, hlow]
      by_cases h : u = v
      · simp [h]
      · simp only [if_neg h]
        exact hinv.dom u
    · intro u hu
      rw [hstk] at hu
      rw [hidx]
      by_cases h : u = v
      · simp [h]
      · simp only [if_neg h]
        exact hinv.stack_indexed u ((List.mem_cons.mp hu).resolve_left (fun he => absurd he h))
    · intro u i h
      rw [hidx] at h
      rw [hctr]
      by_cases hc : u = v
      · rw [if_pos hc] at h
        injection h with h
        omega
      · rw [if_neg hc] at h
        have := hinv.index_lt u i h
        omega
    · intro u w i hu hw
      rw [hidx] at hu hw
      by_cases hcu : u = v <;> by_cases hcw : w = v
      · rw [hcu, hcw]
      · rw [if_pos hcu] at hu
        rw [if_neg hcw] at hw
        injection hu with hu
        exact absurd (hinv.index_lt w i hw) (by omega)
      · rw [if_neg hcu] at hu
        rw [if_pos hcw] at hw
        injection hw with hw
        exact absurd (hinv.index_lt u i hu) (by omega)
      · rw [if_neg hcu] at hu
        rw [if_neg hcw] at hw
        exact hinv.index_inj u w i hu hw
    · intro u h
      rw [hidx] at h
      by_cases hc : u = v
      · exact hc ▸ hvV
      · rw [if_neg hc] at h
        exact hinv.indexed_V u h
    · rw [hstk]
      refine List.Pairwise.cons ?_ ?_
      · intro b hb
        have hbv : b ≠ v := fun he => hvstk (he ▸ hb)
        obtain ⟨i, hi⟩ := Option.isSome_iff_exists.mp (hinv.stack_indexed b hb)
        have : idxN (pushSt v st0) b = i := by
          unfold idxN
          rw [hidx, if_neg hbv, hi]
          rfl
        have hvv : idxN (pushSt v st0) v = st0.index_counter := by
          unfold idxN
          rw [hidx, if_pos rfl]
          rfl
        rw [this, hvv]
        exact hinv.index_lt b i hi
      · refine hinv.stack_sorted.imp_of_mem ?_
        intro a b ha hb hab
        have hav : a ≠ v := fun he => hvstk (he ▸ ha)
        have hbv : b ≠ v := fun he => hvstk (he ▸ hb)
        have h1 : idxN (pushSt v st0) a = idxN st0 a := by
          unfold idxN
          rw [hidx, if_neg hav]
        have h2 : idxN (pushSt v st0) b = idxN st0 b := by
          unfold idxN
          rw [hidx, if_neg hbv]
        rw [h1, h2]
        exact hab
    · intro u l hl i hi
      rw [hlow] at hl
      rw [hidx] at hi
      by_cases hc : u = v
      · rw [if_pos hc] at hl hi
        injection hl with hl
        injection hi with hi
        omega
      · rw [if_neg hc] at hl hi
        exact hinv.low_le u l hl i hi
    · intro u hu l hl
      rw [hstk] at hu
      rw [hlow] at hl
      by_cases hc : u = v
      · rw [if_pos hc] at hl
        injection hl with hl
        refine ⟨v, by rw [hstk]; exact List.mem_cons_self v _, ?_, ?_⟩
        · rw [hidx, if_pos rfl, hl]
        · exact hc ▸ GReach.refl
      · rw [if_neg hc] at hl
        have hu' : u ∈ st0.stack := (List.mem_cons.mp hu).resolve_left (fun he => absurd he hc)
        obtain ⟨z, hz, hzi, hzr⟩ := hinv.low_witness u hu' l hl
        have hzv : z ≠ v := fun he => hvstk (he ▸ hz)
        refine ⟨z, by rw [hstk]; exact List.mem_cons_of_mem v hz, ?_, hzr⟩
        rw [hidx, if_neg hzv]
        exact hzi
    · intro u
      rw [hidx, hons, hsccs]
      by_cases hc : u = v
      · simp only [if_pos hc]
        constructor
        · rintro ⟨-, h⟩
          exact absurd h (by simp)
        · rintro ⟨S, hS, huS⟩
          have := (hinv.blacks_iff u).mpr ⟨S, hS, huS⟩
          rw [hc, hv0] at this
          exact absurd this.1 (by simp)
      · simp only [if_neg hc]
        exact hinv.blacks_iff u
    · rw [hsccs]
      exact hinv.sccs_disj
    · rw [hsccs]
      exact hinv.sccs_closed
  · -- mono0
    intro u i h
    have huv : u ≠ v := fun he => by
      rw [he, hv0] at h
      exact absurd h (by simp)
    rw [hidx, if_neg huv]
    exact h
  · rw [hctr]
    omega
  · rw [hidx, if_pos rfl]
  · intro u h
    have huv : u ≠ v := fun he => by
      rw [he, hv0] at h
      exact absurd h (by simp)
    rw [hlow, if_neg huv]
  · intro u h hon
    have huv : u ≠ v := fun he => by
      rw [he, hv0] at h
      exact absurd h (by simp)
    rw [hons, if_neg huv] at hon
    exact hon
  · refine ⟨[], by rw [hstk]; rfl, by simp, ?_⟩
    exact ⟨by simp, by simp, by simp, by simp, by simp, by simp⟩
  · exact ⟨[], by rw [hsccs]; simp⟩
  · intro u hu
    rw [hstk] at hu
    rcases List.mem_cons.mp hu with he | hu2
    · exact he ▸ GReach.refl
    · exact hacc u hu2
  · simp
  · simp

theorem TInv.updLow_pres {g : Nat → Finset Nat} {V : Finset Nat}
    {st : TarjanSt} (hinv : TInv g V st) {v x i : Nat}
    (hvi : st.index v = some i) (hle : x ≤ i)
    (hwit : v ∈ st.stack → ∃ z ∈ st.stack, st.index z = some x ∧ GReach g v z) :
    TInv g V (updLow v x st) := by
  have hidx : ∀ u, (updLow v x st).index u = st.index u := fun u => rfl
  have hlow : ∀ u, (updLow v x st).lowlinks u
      = if u = v then some x else st.lowlinks u := fun u => rfl
  refine ⟨hinv.nodup, hinv.onstack_iff, ?_, hinv.stack_indexed, hinv.index_lt,
    hinv.index_inj, hinv.indexed_V, ?_, ?_, ?_, hinv.blacks_iff,
    hinv.sccs_disj, hinv.sccs_closed⟩
  · intro u
    rw [hidx, hlow]
    by_cases hc : u = v
    · rw [if_pos hc, hc, hvi]
      simp
    · rw [if_neg hc]
      exact hinv.dom u
  · exact hinv.stack_sorted
  · intro u l hl j hj
    rw [hlow] at hl
    rw [hidx] at hj
    by_cases hc : u = v
    · rw [if_pos hc] at hl
      rw [hc, hvi] at hj
      injection hl with hl
      injection hj with hj
      omega
    · rw [if_neg hc] at hl
      exact hinv.low_le u l hl j hj
  · intro u hu l hl
    rw [hlow] at hl
    by_cases hc : u = v
    · rw [if_pos hc] at hl
      injection hl with hl
      obtain ⟨z, hz, hzi, hzr⟩ := hwit (hc ▸ hu)
      exact ⟨z, hz, by rw [hidx]; rw [hzi, hl], hc ▸ hzr⟩
    · rw [if_neg hc] at hl
      obtain ⟨z, hz, hzi, hzr⟩ := hinv.low_witness u hu l hl
      exact ⟨z, hz, by rw [hidx]; exact hzi, hzr⟩

theorem loopInv_skip {g : Nat → Finset Nat} {V : Finset Nat}
    {v : Nat} {st0 : TarjanSt} {done : List Nat} {st : TarjanSt}
    (linv : LoopInv g V v st0 done st) {w iw : Nat}
    (hwi : st.index w = some iw) (hwoff : st.on_stack w = false) :
    LoopInv g V v st0 (done ++ [w]) st := by
  refine ⟨linv.inv, linv.mono0, linv.counter_gt, linv.v_idx, linv.old_low,
    linv.perm_stack, linv.shape, linv.sccs_ext, linv.reach_stack, ?_, ?_⟩
  · intro x hx
    rcases List.mem_append.mp hx with hx | hx
    · exact linv.done_idx x hx
    · rw [List.mem_singleton.mp hx, hwi]
      rfl
  · intro x hx hxs ix hix hlt
    rcases List.mem_append.mp hx with hx | hx
    · exact linv.done_low x hx hxs ix hix hlt
    · rw [List.mem_singleton.mp hx] at hxs
      rw [(linv.inv.onstack_iff w).mpr hxs] at hwoff
      exact absurd hwoff (by simp)

theorem loopInv_merge_onstack {g : Nat → Finset Nat} {V : Finset Nat}
    {v : Nat} {st0 : TarjanSt} {done : List Nat} {st : TarjanSt}
    (linv : LoopInv g V v st0 done st) (hv0 : st0.index v = none)
    {w iw lv : Nat} (hwg : w ∈ g v) (hwi : st.index w = some iw)
    (hwon : st.on_stack w = true) (hlv : st.lowlinks v = some lv) :
    LoopInv g V v st0 (done ++ [w]) (updLow v (min lv iw) st) := by
  have hlvle : lv ≤ st0.index_counter := linv.inv.low_le v lv hlv _ linv.v_idx
  have hidx : ∀ u, (updLow v (min lv iw) st).index u = st.index u := fun u => rfl
  have hlow : ∀ u, (updLow v (min lv iw) st).lowlinks u
      = if u = v then some (min lv iw) else st.lowlinks u := fun u => rfl
  have hstk : (updLow v (min lv iw) st).stack = st.stack := rfl
  have hons : ∀ u, (updLow v (min lv iw) st).on_stack u = st.on_stack u :=
    fun u => rfl
  have hsccs : (updLow v (min lv iw) st).sccs = st.sccs := rfl
  refine ⟨?_, linv.mono0, linv.counter_gt, linv.v_idx, ?_, linv.perm_stack,
    ?_, linv.sccs_ext, linv.reach_stack, ?_, ?_⟩
  · refine linv.inv.updLow_pres linv.v_idx (le_trans (Nat.min_le_left _ _) hlvle) ?_
    intro hvstk
    rcases Nat.le_total lv iw with h | h
    · rw [Nat.min_eq_left h]
      exact linv.inv.low_witness v hvstk lv hlv
    · rw [Nat.min_eq_right h]
      exact ⟨w, (linv.inv.onstack_iff w).mp hwon, hwi, GReach.single hwg⟩
  · intro u hu
    have huv : u ≠ v := fun he => by
      rw [he, hv0] at hu
      exact absurd hu (by simp)
    rw [hlow, if_neg huv]
    exact linv.old_low u hu
  · obtain ⟨pre, hpre, hprenew, hpf⟩ := linv.shape
    refine ⟨pre, by rw [hstk]; exact hpre, hprenew, ?_, ?_, ?_, ?_, ?_, ?_⟩
    · intro u hu i hi
      rw [hidx] at hi
      exact hpf.idx_ge u hu i hi
    · intro u hu
      obtain ⟨l, i, hl, hi, hlt⟩ := hpf.elow u hu
      refine ⟨l, i, ?_, hi, hlt⟩
      rw [hlow, if_neg (hprenew u hu).2]
      exact hl
    · intro u hu x hx
      rw [hidx]
      exact hpf.succ_idx u hu x hx
    · intro u hu x hx hxs ix iu hix hiu hlt
      rw [hstk] at hxs
      rw [hidx] at hix hiu
      obtain ⟨lu, hlu, hle⟩ := hpf.mprop u hu x hx hxs ix iu hix hiu hlt
      refine ⟨lu, ?_, hle⟩
      rw [hlow, if_neg (hprenew u hu).2]
      exact hlu
    · exact hpf.reach_from
    · intro u hu lv' hlv' lu hlu
      rw [hlow, if_pos rfl] at hlv'
      rw [hlow, if_neg (hprenew u hu).2] at hlu
      injection hlv' with hlv'
      have := hpf.low_ge u hu lv hlv lu hlu
      omega
  · intro x hx
    rw [hidx]
    rcases List.mem_append.mp hx with hx | hx
    · exact linv.done_idx x hx
    · rw [List.mem_singleton.mp hx, hwi]
      rfl
  · intro x hx hxs ix hix hlt
    rw [hstk] at hxs
    rw [hidx] at hix
    rcases List.mem_append.mp hx with hx | hx
    · obtain ⟨lv', hlv', hle⟩ := linv.done_low x hx hxs ix hix hlt
      rw [hlv] at hlv'
      injection hlv' with hlv'
      refine ⟨min lv iw, by rw [hlow, if_pos rfl], ?_⟩
      have : lv ≤ ix := hlv' ▸ hle
      omega
    · rw [List.mem_singleton.mp hx] at hix
      rw [hwi] at hix
      injection hix with hix
      refine ⟨min lv iw, by rw [hlow, if_pos rfl], ?_⟩
      omega

theorem mono_some {st st' : TarjanSt}
    (hmono : ∀ u i, st.index u = some i → st'.index u = some i)
    {u : Nat} (hu : (st.index u).isSome) : (st'.index u).isSome := by
  obtain ⟨j, hj⟩ := Option.isSome_iff_exists.mp hu
  rw [hmono u j hj]
  rfl

theorem mono_back {st st' : TarjanSt}
    (hmono : ∀ u i, st.index u = some i → st'.index u = some i)
    {u : Nat} (hu : (st.index u).isSome) {i : Nat}
    (hi : st'.index u = some i) : st.index u = some i := by
  obtain ⟨j, hj⟩ := Option.isSome_iff_exists.mp hu
  rw [hmono u j hj] at hi
  injection hi with hi
  rw [hi] at hj
  exact hj

theorem loopInv_recurse_root {g : Nat → Finset Nat} {V : Finset Nat}
    {v : Nat} {st0 : TarjanSt} {done : List Nat} {st st' : TarjanSt}
    (linv : LoopInv g V v st0 done st) (hv0 : st0.index v = none)
    {w : Nat} (hwn : st.index w = none)
    (hpost : SCPost g V w st st')
    {lv lw : Nat} (hlv : st'.lowlinks v = some lv)
    (hlw : st'.lowlinks w = some lw)
    (hrs : st'.stack = st.stack)
    (hrlow : st'.lowlinks w = some st.index_counter) :
    LoopInv g V v st0 (done ++ [w]) (updLow v (min lv lw) st') := by
  have hvsome : (st.index v).isSome := by
    rw [linv.v_idx]
    rfl
  have hvst' : st'.index v = some st0.index_counter := hpost.mono v _ linv.v_idx
  have hlveq : st.lowlinks v = some lv := by
    rw [← hpost.old_low v hvsome]
    exact hlv
  have hlvle : lv ≤ st0.index_counter := linv.inv.low_le v lv hlveq _ linv.v_idx
  have hlwval : lw = st.index_counter := by
    rw [hlw] at hrlow
    injection hrlow
  have hminlv : min lv lw = lv := by
    have := linv.counter_gt
    omega
  have hvstk : v ∈ st.stack := by
    obtain ⟨pre, hpre, -, -⟩ := linv.shape
    rw [hpre]
    exact List.mem_append_right pre (List.mem_cons_self v _)
  have hstk2 : (updLow v (min lv lw) st').stack = st.stack := hrs
  have hidx2 : ∀ u, (updLow v (min lv lw) st').index u = st'.index u :=
    fun u => rfl
  have hlow2 : ∀ u, (updLow v (min lv lw) st').lowlinks u
      = if u = v then some (min lv lw) else st'.lowlinks u := fun u => rfl
  have hons2 : ∀ u, (updLow v (min lv lw) st').on_stack u = st'.on_stack u :=
    fun u => rfl
  -- exact index transfer for st-indexed vertices
  have hback : ∀ u, (st.index u).isSome → ∀ i, st'.index u = some i →
      st.index u = some i := fun u hu i hi => mono_back hpost.mono hu hi
  have hstack_low : ∀ u ∈ st.stack, st'.lowlinks u = st.lowlinks u :=
    fun u hu => hpost.old_low u (linv.inv.stack_indexed u hu)
  refine ⟨?_, ?_, ?_, hvst', ?_, ?_, ?_, ?_, ?_, ?_, ?_⟩
  · -- TInv
    refine hpost.inv.updLow_pres hvst'
      (le_trans (le_of_eq hminlv) hlvle) ?_
    intro _
    rw [hminlv]
    obtain ⟨z, hz, hzi, hzr⟩ := linv.inv.low_witness v hvstk lv hlveq
    refine ⟨z, by rw [hrs]; exact hz, ?_, hzr⟩
    exact hpost.mono z lv hzi
  · exact fun u i h => hpost.mono u i (linv.mono0 u i h)
  · exact lt_trans linv.counter_gt hpost.counter_lt
  · intro u hu
    have huv : u ≠ v := fun he => by
      rw [he, hv0] at hu
      exact absurd hu (by simp)
    rw [hlow2, if_neg huv, hpost.old_low u (mono_some linv.mono0 hu)]
    exact linv.old_low u hu
  · intro u hu hon
    rw [hons2] at hon
    exact linv.perm_stack u hu
      (hpost.perm_stack u (mono_some linv.mono0 hu) hon)
  · -- shape
    obtain ⟨pre, hpre, hprenew, hpf⟩ := linv.shape
    have hpre_stk : ∀ u ∈ pre, u ∈ st.stack := by
      intro u hu
      rw [hpre]
      exact List.mem_append_left _ hu
    have hpre_some : ∀ u ∈ pre, (st.index u).isSome :=
      fun u hu => linv.inv.stack_indexed u (hpre_stk u hu)
    refine ⟨pre, by rw [hstk2]; exact hpre, hprenew, ?_, ?_, ?_, ?_, ?_, ?_⟩
    · intro u hu i hi
      rw [hidx2] at hi
      exact hpf.idx_ge u hu i (hback u (hpre_some u hu) i hi)
    · intro u hu
      obtain ⟨l, i, hl, hi, hlt⟩ := hpf.elow u hu
      refine ⟨l, i, ?_, hpost.mono u i hi, hlt⟩
      rw [hlow2, if_neg (hprenew u hu).2, hstack_low u (hpre_stk u hu)]
      exact hl
    · intro u hu x hx
      rw [hidx2]
      exact mono_some hpost.mono (hpf.succ_idx u hu x hx)
    · intro u hu x hx hxs ix iu hix hiu hlt
      rw [hstk2] at hxs
      rw [hidx2] at hix hiu
      have hxsome : (st.index x).isSome := linv.inv.stack_indexed x hxs
      obtain ⟨lu, hlu, hle⟩ := hpf.mprop u hu x hx hxs ix iu
        (hback x hxsome ix hix) (hback u (hpre_some u hu) iu hiu) hlt
      refine ⟨lu, ?_, hle⟩
      rw [hlow2, if_neg (hprenew u hu).2, hstack_low u (hpre_stk u hu)]
      exact hlu
    · exact hpf.reach_from
    · intro u hu lv' hlv' lu hlu
      rw [hlow2, if_pos rfl] at hlv'
      rw [hlow2, if_neg (hprenew u hu).2, hstack_low u (hpre_stk u hu)] at hlu
      injection hlv' with hlv'
      have := hpf.low_ge u hu lv hlveq lu hlu
      omega
  · obtain ⟨ns, hns⟩ := linv.sccs_ext
    obtain ⟨ns', hns'⟩ := hpost.sccs_ext
    exact ⟨ns ++ ns', by
      show st'.sccs = st0.sccs ++ (ns ++ ns')
      rw [hns', hns, List.append_assoc]⟩
  · intro u hu
    rw [hstk2] at hu
    exact linv.reach_stack u hu
  · intro x hx
    rw [hidx2]
    rcases List.mem_append.mp hx with hx | hx
    · exact mono_some hpost.mono (linv.done_idx x hx)
    · rw [List.mem_singleton.mp hx, hpost.v_idx]
      rfl
  · intro x hx hxs ix hix hlt
    rw [hstk2] at hxs
    rw [hidx2] at hix
    have hxsome : (st.index x).isSome := linv.inv.stack_indexed x hxs
    have hixst : st.index x = some ix := hback x hxsome ix hix
    rcases List.mem_append.mp hx with hx | hx
    · obtain ⟨lv'', hlv'', hle⟩ := linv.done_low x hx hxs ix hixst hlt
      rw [hlveq] at hlv''
      injection hlv'' with hlv''
      refine ⟨min lv lw, by rw [hlow2, if_pos rfl], ?_⟩
      omega
    · rw [List.mem_singleton.mp hx] at hixst
      rw [hixst] at hwn
      exact absurd hwn (by simp)

theorem loopInv_recurse_nonroot {g : Nat → Finset Nat} {V : Finset Nat}
    {v : Nat} {st0 : TarjanSt} {done : List Nat} {st st' : TarjanSt}
    (hinv0 : TInv g V st0)
    (linv : LoopInv g V v st0 done st) (hv0 : st0.index v = none)
    (hacc0 : ∀ u ∈ st0.stack, GReach g u v)
    {w : Nat} (hwg : w ∈ g v) (hwn : st.index w = none)
    (hpost : SCPost g V w st st')
    {lv lw : Nat} (hlv : st'.lowlinks v = some lv)
    (hlw : st'.lowlinks w = some lw)
    {cpre : List Nat} (hcs : st'.stack = cpre ++ st.stack) (hwin : w ∈ cpre)
    (hcnew : ∀ u ∈ cpre, st.index u = none)
    (hcpf : PreFacts g w st.index_counter st' cpre) :
    LoopInv g V v st0 (done ++ [w]) (updLow v (min lv lw) st') := by
  obtain ⟨pre, hpre, hprenew, hpf⟩ := linv.shape
  have hvsome : (st.index v).isSome := by
    rw [linv.v_idx]
    rfl
  have hvst' : st'.index v = some st0.index_counter := hpost.mono v _ linv.v_idx
  have hlveq : st.lowlinks v = some lv := by
    rw [← hpost.old_low v hvsome]
    exact hlv
  have hlvle : lv ≤ st0.index_counter := linv.inv.low_le v lv hlveq _ linv.v_idx
  have hvstk : v ∈ st.stack := by
    rw [hpre]
    exact List.mem_append_right pre (List.mem_cons_self v _)
  have hwstk' : w ∈ st'.stack := by
    rw [hcs]
    exact List.mem_append_left _ hwin
  have hcne_v : ∀ u ∈ cpre, u ≠ v := by
    intro u hu he
    rw [he] at hu
    rw [hcnew v hu] at hvsome
    exact absurd hvsome (by simp)
  have hback : ∀ u, (st.index u).isSome → ∀ i, st'.index u = some i →
      st.index u = some i := fun u hu i hi => mono_back hpost.mono hu hi
  have hstack_low : ∀ u ∈ st.stack, st'.lowlinks u = st.lowlinks u :=
    fun u hu => hpost.old_low u (linv.inv.stack_indexed u hu)
  have hpre_stk : ∀ u ∈ pre, u ∈ st.stack := by
    intro u hu
    rw [hpre]
    exact List.mem_append_left _ hu
  have hpre_some : ∀ u ∈ pre, (st.index u).isSome :=
    fun u hu => linv.inv.stack_indexed u (hpre_stk u hu)
  have hidx2 : ∀ u, (updLow v (min lv lw) st').index u = st'.index u :=
    fun u => rfl
  have hlow2 : ∀ u, (updLow v (min lv lw) st').lowlinks u
      = if u = v then some (min lv lw) else st'.lowlinks u := fun u => rfl
  have hons2 : ∀ u, (updLow v (min lv lw) st').on_stack u = st'.on_stack u :=
    fun u => rfl
  have hstk2 : (updLow v (min lv lw) st').stack = cpre ++ st.stack := hcs
  -- index bound for entry-stack members
  have hold_lt : ∀ u ∈ st0.stack, ∀ i, st'.index u = some i →
      i < st0.index_counter := by
    intro u hu i hi
    obtain ⟨j, hj⟩ := Option.isSome_iff_exists.mp (hinv0.stack_indexed u hu)
    have hj' : st'.index u = some j := hpost.mono u j (linv.mono0 u j hj)
    rw [hj'] at hi
    injection hi with hi
    rw [hi] at hj
    exact hinv0.index_lt u _ hj
  -- index lower bound for pre members
  have hpre_ge : ∀ u ∈ pre, ∀ i, st'.index u = some i →
      st0.index_counter ≤ i :=
    fun u hu i hi => hpf.idx_ge u hu i (hback u (hpre_some u hu) i hi)
  -- index lower bound for cpre members
  have hcpre_ge : ∀ u ∈ cpre, ∀ i, st'.index u = some i →
      st.index_counter ≤ i := hcpf.idx_ge
  have hnn : st0.index_counter < st.index_counter := linv.counter_gt
  -- the new TInv
  have hinv2 : TInv g V (updLow v (min lv lw) st') := by
    refine hpost.inv.updLow_pres hvst'
      (le_trans (Nat.min_le_left _ _) hlvle) ?_
    intro _
    rcases Nat.le_total lv lw with h | h
    · rw [Nat.min_eq_left h]
      obtain ⟨z, hz, hzi, hzr⟩ := linv.inv.low_witness v hvstk lv hlveq
      refine ⟨z, by rw [hcs]; exact List.mem_append_right _ hz, ?_, hzr⟩
      exact hpost.mono z lv hzi
    · rw [Nat.min_eq_right h]
      obtain ⟨z, hz, hzi, hzr⟩ := hpost.inv.low_witness w hwstk' lw hlw
      exact ⟨z, hz, hzi, GReach.head hwg hzr⟩
  refine ⟨hinv2, ?_, ?_, hvst', ?_, ?_, ?_, ?_, ?_, ?_, ?_⟩
  · exact fun u i h => hpost.mono u i (linv.mono0 u i h)
  · exact lt_trans linv.counter_gt hpost.counter_lt
  · intro u hu
    have huv : u ≠ v := fun he => by
      rw [he, hv0] at hu
      exact absurd hu (by simp)
    rw [hlow2, if_neg huv, hpost.old_low u (mono_some linv.mono0 hu)]
    exact linv.old_low u hu
  · intro u hu hon
    rw [hons2] at hon
    exact linv.perm_stack u hu
      (hpost.perm_stack u (mono_some linv.mono0 hu) hon)
  · -- shape
    refine ⟨cpre ++ pre, ?_, ?_, ?_, ?_, ?_, ?_, ?_, ?_⟩
    · rw [hstk2, hpre, List.append_assoc]
    · intro u hu
      rcases List.mem_append.mp hu with hu | hu
      · refine ⟨?_, hcne_v u hu⟩
        by_cases hn : st0.index u = none
        · exact hn
        · obtain ⟨j, hj⟩ := Option.ne_none_iff_exists'.mp hn
          have hj2 := linv.mono0 u j hj
          rw [hcnew u hu] at hj2
          exact absurd hj2 (by simp)
      · exact hprenew u hu
    · intro u hu i hi
      rw [hidx2] at hi
      rcases List.mem_append.mp hu with hu | hu
      · have := hcpre_ge u hu i hi
        omega
      · exact hpre_ge u hu i hi
    · intro u hu
      rcases List.mem_append.mp hu with hu | hu
      · obtain ⟨l, i, hl, hi, hlt⟩ := hcpf.elow u hu
        refine ⟨l, i, ?_, hi, hlt⟩
        rw [hlow2, if_neg (hcne_v u hu)]
        exact hl
      · obtain ⟨l, i, hl, hi, hlt⟩ := hpf.elow u hu
        refine ⟨l, i, ?_, hpost.mono u i hi, hlt⟩
        rw [hlow2, if_neg (hprenew u hu).2, hstack_low u (hpre_stk u hu)]
        exact hl
    · intro u hu x hx
      rw [hidx2]
      rcases List.mem_append.mp hu with hu | hu
      · exact hcpf.succ_idx u hu x hx
      · exact mono_some hpost.mono (hpf.succ_idx u hu x hx)
    · intro u hu x hx hxs ix iu hix hiu hlt
      rw [hstk2] at hxs
      rw [hidx2] at hix hiu
      rcases List.mem_append.mp hu with hu | hu
      · obtain ⟨lu, hlu, hle⟩ := hcpf.mprop u hu x hx (by rw [hcs]; exact hxs)
          ix iu hix hiu hlt
        refine ⟨lu, ?_, hle⟩
        rw [hlow2, if_neg (hcne_v u hu)]
        exact hlu
      · -- u ∈ pre: x cannot be in cpre (its index is too large)
        have hiust : st.index u = some iu := hback u (hpre_some u hu) iu hiu
        have hiu_lt : iu < st.index_counter := linv.inv.index_lt u iu hiust
        rcases List.mem_append.mp hxs with hxc | hxst
        · have := hcpre_ge x hxc ix hix
          omega
        · have hxsome : (st.index x).isSome := linv.inv.stack_indexed x hxst
          obtain ⟨lu, hlu, hle⟩ := hpf.mprop u hu x hx hxst ix iu
            (hback x hxsome ix hix) hiust hlt
          refine ⟨lu, ?_, hle⟩
          rw [hlow2, if_neg (hprenew u hu).2, hstack_low u (hpre_stk u hu)]
          exact hlu
    · intro u hu
      rcases List.mem_append.mp hu with hu | hu
      · exact GReach.head hwg (hcpf.reach_from u hu)
      · exact hpf.reach_from u hu
    · intro u hu lv' hlv' lu hlu
      rw [hlow2, if_pos rfl] at hlv'
      injection hlv' with hlv'
      rcases List.mem_append.mp hu with hu | hu
      · rw [hlow2, if_neg (hcne_v u hu)] at hlu
        have := hcpf.low_ge u hu lw hlw lu hlu
        omega
      · rw [hlow2, if_neg (hprenew u hu).2, hstack_low u (hpre_stk u hu)] at hlu
        have := hpf.low_ge u hu lv hlveq lu hlu
        omega
  · obtain ⟨ns, hns⟩ := linv.sccs_ext
    obtain ⟨ns', hns'⟩ := hpost.sccs_ext
    exact ⟨ns ++ ns', by
      show st'.sccs = st0.sccs ++ (ns ++ ns')
      rw [hns', hns, List.append_assoc]⟩
  · -- reach_stack via the chain argument
    have hdec : ∀ u ∈ (updLow v (min lv lw) st').stack,
        u ∈ cpre ∨ u ∈ pre ∨ u = v ∨ u ∈ st0.stack := by
      intro u hu
      rw [hstk2, hpre] at hu
      rcases List.mem_append.mp hu with hu | hu
      · exact Or.inl hu
      rcases List.mem_append.mp hu with hu | hu
      · exact Or.inr (Or.inl hu)
      rcases List.mem_cons.mp hu with hu | hu
      · exact Or.inr (Or.inr (Or.inl hu))
      · exact Or.inr (Or.inr (Or.inr hu))
    refine stack_reach_chain hinv2 (show (updLow v (min lv lw) st').index v
        = some st0.index_counter from hvst') ?_ ?_
    · intro u hu i hi hgt
      rw [hidx2] at hi
      rcases hdec u hu with hu2 | hu2 | hu2 | hu2
      · obtain ⟨l, i', hl, hi', hlt⟩ := hcpf.elow u hu2
        rw [hi'] at hi
        injection hi with hi
        refine ⟨l, ?_, by omega⟩
        rw [hlow2, if_neg (hcne_v u hu2)]
        exact hl
      · obtain ⟨l, i', hl, hi', hlt⟩ := hpf.elow u hu2
        rw [hpost.mono u i' hi'] at hi
        injection hi with hi
        refine ⟨l, ?_, by omega⟩
        rw [hlow2, if_neg (hprenew u hu2).2, hstack_low u (hpre_stk u hu2)]
        exact hl
      · rw [hu2, hvst'] at hi
        injection hi with hi
        omega
      · have := hold_lt u hu2 i hi
        omega
    · intro u hu i hi hlt
      rw [hidx2] at hi
      rcases hdec u hu with hu2 | hu2 | hu2 | hu2
      · have := hcpre_ge u hu2 i hi
        omega
      · have := hpre_ge u hu2 i hi
        omega
      · rw [hu2, hvst'] at hi
        injection hi with hi
        omega
      · exact hacc0 u hu2
  · intro x hx
    rw [hidx2]
    rcases List.mem_append.mp hx with hx | hx
    · exact mono_some hpost.mono (linv.done_idx x hx)
    · rw [List.mem_singleton.mp hx, hpost.v_idx]
      rfl
  · intro x hx hxs ix hix hlt
    rw [hstk2] at hxs
    rw [hidx2] at hix
    rcases List.mem_append.mp hxs with hxc | hxst
    · have := hcpre_ge x hxc ix hix
      omega
    · have hxsome : (st.index x).isSome := linv.inv.stack_indexed x hxst
      have hixst : st.index x = some ix := hback x hxsome ix hix
      rcases List.mem_append.mp hx with hx | hx
      · obtain ⟨lv'', hlv'', hle⟩ := linv.done_low x hx hxst ix hixst hlt
        rw [hlveq] at hlv''
        injection hlv'' with hlv''
        refine ⟨min lv lw, by rw [hlow2, if_pos rfl], ?_⟩
        omega
      · rw [List.mem_singleton.mp hx] at hixst
        rw [hixst] at hwn
        exact absurd hwn (by simp)

theorem visitLoop_spec {g : Nat → Finset Nat} {V : Finset Nat}
    (HG : ∀ x, ∀ y ∈ g x, y ∈ V) {fuel : Nat}
    (HR : ∀ w st, TInv g V st → w ∈ V → st.index w = none →
        (∀ u ∈ st.stack, GReach g u w) →
        (V.filter (fun u => st.index u = none)).card < fuel →
        ∃ st', strongconnect g fuel w st = some st' ∧ SCPost g V w st st')
    {v : Nat} {st0 : TarjanSt} (hinv0 : TInv g V st0)
    (hv0 : st0.index v = none) (hvV : v ∈ V)
    (hacc0 : ∀ u ∈ st0.stack, GReach g u v)
    (hfuel : (V.filter (fun u => st0.index u = none)).card < fuel + 1) :
    ∀ ws done st, (∀ w ∈ ws, w ∈ g v) → LoopInv g V v st0 done st →
    ∃ st', visitLoop (strongconnect g fuel) v ws st = some st' ∧
      LoopInv g V v st0 (done ++ ws) st' := by
  intro ws
  induction ws with
  | nil =>
    intro done st _ linv
    exact ⟨st, rfl, by rw [List.append_nil]; exact linv⟩
  | cons w ws ih =>
    intro done st hws linv
    have hwg : w ∈ g v := hws w (List.mem_cons_self w ws)
    have hws' : ∀ x ∈ ws, x ∈ g v := fun x hx => hws x (List.mem_cons_of_mem w hx)
    have happ : (done ++ [w]) ++ ws = done ++ w :: ws := by
      rw [List.append_assoc, List.singleton_append]
    cases h : st.index w with
    | none =>
      -- recursive call on the unvisited successor
      have hfuel' : (V.filter (fun u => st.index u = none)).card < fuel := by
        have hsub : V.filter (fun u => st.index u = none)
            ⊆ (V.filter (fun u => st0.index u = none)).erase v := by
          intro u hu
          rw [Finset.mem_filter] at hu
          rw [Finset.mem_erase]
          refine ⟨?_, ?_⟩
          · intro he
            rw [he, linv.v_idx] at hu
            exact absurd hu.2 (by simp)
          · rw [Finset.mem_filter]
            refine ⟨hu.1, ?_⟩
            by_cases hn : st0.index u = none
            · exact hn
            · obtain ⟨j, hj⟩ := Option.ne_none_iff_exists'.mp hn
              rw [linv.mono0 u j hj] at hu
              exact absurd hu.2 (by simp)
        have h1 := Finset.card_le_card hsub
        have h2 : v ∈ V.filter (fun u => st0.index u = none) := by
          rw [Finset.mem_filter]
          exact ⟨hvV, hv0⟩
        rw [Finset.card_erase_of_mem h2] at h1
        have h3 : 0 < (V.filter (fun u => st0.index u = none)).card :=
          Finset.card_pos.mpr ⟨v, h2⟩
        omega
      obtain ⟨st', hsc, hpost⟩ := HR w st linv.inv (HG v w hwg) h
        (fun u hu => GReach.tail (linv.reach_stack u hu) hwg) hfuel'
      have hlvs : (st'.lowlinks v).isSome := by
        rw [← hpost.inv.dom v, hpost.mono v _ linv.v_idx]
        rfl
      have hlws : (st'.lowlinks w).isSome := by
        rw [← hpost.inv.dom w, hpost.v_idx]
        rfl
      obtain ⟨lv, hlv⟩ := Option.isSome_iff_exists.mp hlvs
      obtain ⟨lw, hlw⟩ := Option.isSome_iff_exists.mp hlws
      have heq : visitLoop (strongconnect g fuel) v (w :: ws) st
          = visitLoop (strongconnect g fuel) v ws (updLow v (min lv lw) st') := by
        simp only [visitLoop, h, hsc, hlv, hlw]
      rw [heq]
      have linv' : LoopInv g V v st0 (done ++ [w]) (updLow v (min lv lw) st') := by
        rcases hpost.rest with ⟨hrs, hron, hrlow⟩ | ⟨cpre, hcs, hwin, hcnew, hcpf⟩
        · exact loopInv_recurse_root linv hv0 h hpost hlv hlw hrs hrlow
        · exact loopInv_recurse_nonroot hinv0 linv hv0 hacc0 hwg h hpost hlv hlw
            hcs hwin hcnew hcpf
      obtain ⟨st'', hrun, hl⟩ := ih (done ++ [w]) _ hws' linv'
      exact ⟨st'', hrun, happ ▸ hl⟩
    | some iw =>
      cases hon : st.on_stack w with
      | true =>
        have hlvs : (st.lowlinks v).isSome := by
          rw [← linv.inv.dom v, linv.v_idx]
          rfl
        obtain ⟨lv, hlv⟩ := Option.isSome_iff_exists.mp hlvs
        have heq : visitLoop (strongconnect g fuel) v (w :: ws) st
            = visitLoop (strongconnect g fuel) v ws (updLow v (min lv iw) st) := by
          simp only [visitLoop, h, hon, hlv, if_true]
        rw [heq]
        have linv' := loopInv_merge_onstack linv hv0 hwg h hon hlv
        obtain ⟨st'', hrun, hl⟩ := ih (done ++ [w]) _ hws' linv'
        exact ⟨st'', hrun, happ ▸ hl⟩
      | false =>
        have heq : visitLoop (strongconnect g fuel) v (w :: ws) st
            = visitLoop (strongconnect g fuel) v ws st := by
          simp only [visitLoop, h, hon, if_false, Bool.false_eq_true]
        rw [heq]
        have linv' := loopInv_skip linv h hon
        obtain ⟨st'', hrun, hl⟩ := ih (done ++ [w]) _ hws' linv'
        exact ⟨st'', hrun, happ ▸ hl⟩

theorem InSameScc.symm {g : Nat → Finset Nat} {a b : Nat}
    (h : InSameScc g a b) : InSameScc g b a := ⟨h.2, h.1⟩

theorem inSameScc_trans {g : Nat → Finset Nat} {a b c : Nat}
    (h1 : InSameScc g a b) (h2 : InSameScc g b c) : InSameScc g a c :=
  ⟨GReach.trans h1.1 h2.1, GReach.trans h2.2 h1.2⟩

theorem finish_spec {g : Nat → Finset Nat} {V : Finset Nat} {v : Nat}
    {st0 st2 : TarjanSt} (hinv0 : TInv g V st0)
    (hv0 : st0.index v = none)
    (linv : LoopInv g V v st0 ((g v).sort (· ≤ ·)) st2) :
    ∃ st', finishV v st2 = some st' ∧ SCPost g V v st0 st' := by
  obtain ⟨pre, hstack2, hprenew, hpf⟩ := linv.shape
  have hvi2 : st2.index v = some st0.index_counter := linv.v_idx
  have hlvs : (st2.lowlinks v).isSome := by
    rw [← linv.inv.dom v, hvi2]
    rfl
  obtain ⟨l, hlv2⟩ := Option.isSome_iff_exists.mp hlvs
  have hlle : l ≤ st0.index_counter := linv.inv.low_le v l hlv2 _ hvi2
  have hdone : ∀ w ∈ g v, w ∈ (g v).sort (· ≤ ·) :=
    fun w hw => (Finset.mem_sort (α := Nat) (· ≤ ·)).mpr hw
  have hvstk2 : v ∈ st2.stack := by
    rw [hstack2]
    exact List.mem_append_right pre (List.mem_cons_self v _)
  have hold_lt : ∀ u ∈ st0.stack, ∀ i, st2.index u = some i →
      i < st0.index_counter := by
    intro u hu i hi
    obtain ⟨j, hj⟩ := Option.isSome_iff_exists.mp (hinv0.stack_indexed u hu)
    have hj' : st2.index u = some j := linv.mono0 u j hj
    rw [hj'] at hi
    injection hi with hi
    rw [hi] at hj
    exact hinv0.index_lt u _ hj
  have hpre_stk : ∀ u ∈ pre, u ∈ st2.stack := by
    intro u hu
    rw [hstack2]
    exact List.mem_append_left _ hu
  have hpre_gt : ∀ u ∈ pre, ∀ i, st2.index u = some i →
      st0.index_counter < i := by
    intro u hu i hi
    have hge := hpf.idx_ge u hu i hi
    rcases Nat.lt_or_ge st0.index_counter i with h | h
    · exact h
    · have : i = st0.index_counter := by omega
      rw [this] at hi
      exact absurd (linv.inv.index_inj u v _ hi hvi2) (hprenew u hu).2
  by_cases hroot : l = st0.index_counter
  · -- root case: emit the SCC {v} ∪ pre
    have hvnp : v ∉ pre := fun h => (hprenew v h).2 rfl
    obtain ⟨onS', hpop, honS⟩ := popScc_eq v pre st0.stack st2.on_stack [] hvnp
    -- the result state
    have heq : finishV v st2 = some { st2 with stack := st0.stack, on_stack := onS', sccs := st2.sccs ++ [(v :: (pre.reverse ++ [])).toFinset] } := by
      simp only [finishV, hlv2, hvi2, if_pos hroot]
      rw [hstack2, hpop]
    rw [heq]
    set P : Finset Nat := (v :: (pre.reverse ++ [])).toFinset with hPdef
    have hP : ∀ u, u ∈ P ↔ (u = v ∨ u ∈ pre) := by
      intro u
      rw [hPdef]
      simp [List.mem_toFinset]
    -- nodup decomposition of the stack
    have hnd := linv.inv.nodup
    rw [hstack2] at hnd
    have hnd2 := List.nodup_append.mp hnd
    have hv_old : v ∉ st0.stack := (List.nodup_cons.mp hnd2.2.1).1
    have hpre_old : ∀ u ∈ pre, u ∉ v :: st0.stack := by
      intro u hu hmem
      exact hnd2.2.2 hu hmem
    -- membership of the popped set in the old stack is impossible
    have hP_not_old : ∀ u, u ∈ P → u ∉ st0.stack := by
      intro u hu hold
      rcases (hP u).mp hu with h | h
      · exact hv_old (h ▸ hold)
      · exact hpre_old u h (List.mem_cons_of_mem v hold)
    -- every popped vertex is on the stack
    have hP_stk : ∀ u ∈ P, u ∈ st2.stack := by
      intro u hu
      rcases (hP u).mp hu with h | h
      · exact h ▸ hvstk2
      · exact hpre_stk u h
    -- characterization: P = the strongly connected class of v
    have hwalk : ∀ b, GReach g v b → GReach g b v →
        b ∈ st2.stack ∧ ∀ ib, st2.index b = some ib → st0.index_counter ≤ ib := by
      intro b hvb
      induction hvb with
      | refl =>
        intro _
        refine ⟨hvstk2, fun ib hib => ?_⟩
        rw [hvi2] at hib
        injection hib with hib
        omega
      | @tail x y hvx hxy ih =>
        intro hyv
        have hxv : GReach g x v := GReach.head hxy hyv
        obtain ⟨hxs, hxi⟩ := ih hxv
        obtain ⟨ix, hix⟩ := Option.isSome_iff_exists.mp
          (linv.inv.stack_indexed x hxs)
        have hxge : st0.index_counter ≤ ix := hxi ix hix
        have hxcase : x = v ∨ x ∈ pre := by
          rw [hstack2] at hxs
          rcases List.mem_append.mp hxs with hx | hx
          · exact Or.inr hx
          rcases List.mem_cons.mp hx with hx | hx
          · exact Or.inl hx
          · have := hold_lt x hx ix hix
            omega
        have hysome : (st2.index y).isSome := by
          rcases hxcase with hx | hx
          · exact linv.done_idx y (hdone y (hx ▸ hxy))
          · exact hpf.succ_idx x hx y hxy
        obtain ⟨iy, hiy⟩ := Option.isSome_iff_exists.mp hysome
        have hyon : st2.on_stack y = true := by
          cases hb : st2.on_stack y with
          | true => rfl
          | false =>
            exfalso
            have hyb : ∃ S ∈ st2.sccs, y ∈ S :=
              (linv.inv.blacks_iff y).mp ⟨hysome, hb⟩
            obtain ⟨S, hS, hyS⟩ := hyb
            have hvy : GReach g v y := GReach.tail hvx hxy
            have hvS : v ∈ S :=
              (linv.inv.sccs_closed S hS y hyS).2 v ⟨hyv, hvy⟩
            have := (linv.inv.blacks_iff v).mpr ⟨S, hS, hvS⟩
            rw [(linv.inv.onstack_iff v).mpr hvstk2] at this
            exact absurd this.2 (by simp)
        have hys : y ∈ st2.stack := (linv.inv.onstack_iff y).mp hyon
        have hyge : st0.index_counter ≤ iy := by
          by_contra hlt
          push_neg at hlt
          have hlx : ∃ lx, st2.lowlinks x = some lx ∧ lx ≤ iy := by
            rcases hxcase with hx | hx
            · obtain ⟨lv', hlv', hle⟩ := linv.done_low y
                (hdone y (hx ▸ hxy)) hys iy hiy hlt
              exact ⟨lv', hx ▸ hlv', hle⟩
            · exact hpf.mprop x hx y hxy hys iy ix hiy hix (by omega)
          obtain ⟨lx, hlxe, hlxle⟩ := hlx
          rcases hxcase with hx | hx
          · rw [hx, hlv2] at hlxe
            injection hlxe with hlxe
            omega
          · have := hpf.low_ge x hx l hlv2 lx hlxe
            omega
        refine ⟨hys, fun ib hib => ?_⟩
        rw [hiy] at hib
        injection hib with hib
        omega
    have hPchar : ∀ b, b ∈ P ↔ InSameScc g v b := by
      intro b
      constructor
      · intro hb
        rcases (hP b).mp hb with h | h
        · exact h ▸ ⟨GReach.refl, GReach.refl⟩
        · exact ⟨hpf.reach_from b h, linv.reach_stack b (hpre_stk b h)⟩
      · rintro ⟨hvb, hbv⟩
        obtain ⟨hbs, hbi⟩ := hwalk b hvb hbv
        rw [hP]
        rw [hstack2] at hbs
        rcases List.mem_append.mp hbs with hb | hb
        · exact Or.inr hb
        rcases List.mem_cons.mp hb with hb | hb
        · exact Or.inl hb
        · obtain ⟨ib, hib⟩ := Option.isSome_iff_exists.mp
            (hinv0.stack_indexed b hb)
          have := hold_lt b hb ib (linv.mono0 b ib hib)
          have := hbi ib (linv.mono0 b ib hib)
          omega
    have hPclosed : ∀ a ∈ P, (∀ b ∈ P, InSameScc g a b) ∧
        (∀ b, InSameScc g a b → b ∈ P) := by
      intro a ha
      have hva : InSameScc g v a := (hPchar a).mp ha
      constructor
      · intro b hb
        exact inSameScc_trans hva.symm ((hPchar b).mp hb)
      · intro b hab
        exact (hPchar b).mpr (inSameScc_trans hva hab)
    -- facts about the new on_stack
    have honS2 : ∀ u, onS' u = true ↔ u ∈ st0.stack := by
      intro u
      rw [honS u]
      by_cases hc : u = v ∨ u ∈ pre
      · rw [if_pos hc]
        constructor
        · intro h
          exact absurd h (by simp)
        · intro h
          exact absurd h (hP_not_old u ((hP u).mpr hc))
      · rw [if_neg hc]
        rw [linv.inv.onstack_iff u, hstack2]
        push_neg at hc
        constructor
        · intro h
          rcases List.mem_append.mp h with h | h
          · exact absurd h hc.2
          rcases List.mem_cons.mp h with h | h
          · exact absurd h hc.1
          · exact h
        · intro h
          exact List.mem_append_right pre (List.mem_cons_of_mem v h)
    refine ⟨_, rfl, ?_⟩
    have hti : TInv g V { st2 with stack := st0.stack, on_stack := onS', sccs := st2.sccs ++ [P] } := by
      refine ⟨?_, ?_, linv.inv.dom, ?_, linv.inv.index_lt, linv.inv.index_inj,
        linv.inv.indexed_V, ?_, linv.inv.low_le, ?_, ?_, ?_, ?_⟩
      · exact hnd2.2.1.of_cons
      · exact honS2
      · intro u hu
        exact linv.inv.stack_indexed u (by
          rw [hstack2]
          exact List.mem_append_right pre (List.mem_cons_of_mem v hu))
      · refine linv.inv.stack_sorted.sublist ?_
        rw [hstack2]
        exact ((List.sublist_cons_self v st0.stack).trans
          (List.sublist_append_right pre (v :: st0.stack)))
      · -- low_witness on the remaining stack
        intro u hu lu hlu
        have hu2 : u ∈ st2.stack := by
          rw [hstack2]
          exact List.mem_append_right pre (List.mem_cons_of_mem v hu)
        obtain ⟨z, hz, hzi, hzr⟩ := linv.inv.low_witness u hu2 lu hlu
        obtain ⟨iu, hiu⟩ := Option.isSome_iff_exists.mp
          (linv.inv.stack_indexed u hu2)
        have hiu_lt : iu < st0.index_counter := hold_lt u hu iu hiu
        have hlu_le : lu ≤ iu := linv.inv.low_le u lu hlu iu hiu
        refine ⟨z, ?_, hzi, hzr⟩
        rw [hstack2] at hz
        rcases List.mem_append.mp hz with hz2 | hz2
        · have := hpre_gt z hz2 lu hzi
          omega
        rcases List.mem_cons.mp hz2 with hz3 | hz3
        · rw [hz3, hvi2] at hzi
          injection hzi with hzi
          omega
        · exact hz3
      · -- blacks_iff
        intro u
        constructor
        · rintro ⟨hus, huon⟩
          by_cases hc : u = v ∨ u ∈ pre
          · exact ⟨P, List.mem_append_right _ (List.mem_singleton_self P),
              (hP u).mpr hc⟩
          · have : st2.on_stack u = false := by
              have := honS u
              rw [if_neg hc] at this
              rw [← this]
              exact huon
            obtain ⟨S, hS, huS⟩ := (linv.inv.blacks_iff u).mp ⟨hus, this⟩
            exact ⟨S, List.mem_append_left _ hS, huS⟩
        · rintro ⟨S, hS, huS⟩
          rcases List.mem_append.mp hS with hS2 | hS2
          · have hb := (linv.inv.blacks_iff u).mpr ⟨S, hS2, huS⟩
            refine ⟨hb.1, ?_⟩
            show onS' u = false
            rw [honS u]
            by_cases hc : u = v ∨ u ∈ pre
            · rw [if_pos hc]
            · rw [if_neg hc]
              exact hb.2
          · rw [List.mem_singleton.mp hS2] at huS
            refine ⟨?_, ?_⟩
            · exact linv.inv.stack_indexed u (hP_stk u huS)
            · show onS' u = false
              rw [honS u, if_pos ((hP u).mp huS)]
      · -- pairwise disjoint
        show List.Pairwise (fun S T => ∀ a ∈ S, a ∉ T) (st2.sccs ++ [P])
        rw [List.pairwise_append]
        refine ⟨linv.inv.sccs_disj, List.pairwise_singleton _ _, ?_⟩
        intro S hS T hT a haS haT
        rw [List.mem_singleton.mp hT] at haT
        have hb := (linv.inv.blacks_iff a).mpr ⟨S, hS, haS⟩
        rw [(linv.inv.onstack_iff a).mpr (hP_stk a haT)] at hb
        exact absurd hb.2 (by simp)
      · -- sccs_closed
        intro S hS
        rcases List.mem_append.mp hS with hS2 | hS2
        · exact linv.inv.sccs_closed S hS2
        · rw [List.mem_singleton.mp hS2]
          exact hPclosed
    refine ⟨hti, linv.mono0, linv.counter_gt, hvi2, linv.old_low, ?_, ?_, ?_⟩
    · -- perm_stack
      intro u hu hon
      have hon2 : onS' u = true := hon
      rw [honS u] at hon2
      by_cases hc : u = v ∨ u ∈ pre
      · rw [if_pos hc] at hon2
        exact absurd hon2 (by simp)
      · rw [if_neg hc] at hon2
        exact linv.perm_stack u hu hon2
    · obtain ⟨ns, hns⟩ := linv.sccs_ext
      exact ⟨ns ++ [P], by rw [hns, List.append_assoc]⟩
    · -- rest: root branch
      left
      refine ⟨rfl, ?_, ?_⟩
      · show onS' v = false
        rw [honS v, if_pos (Or.inl rfl)]
      · show st2.lowlinks v = some st0.index_counter
        rw [hlv2, hroot]
  · -- non-root case: v stays on the stack
    have heq : finishV v st2 = some st2 := by
      simp only [finishV, hlv2, hvi2, if_neg hroot]
    rw [heq]
    have hlt : l < st0.index_counter := by omega
    refine ⟨st2, rfl, linv.inv, linv.mono0, linv.counter_gt, hvi2,
      linv.old_low, linv.perm_stack, linv.sccs_ext, Or.inr ?_⟩
    refine ⟨pre ++ [v], ?_, List.mem_append_right pre (List.mem_singleton_self v),
      ?_, ?_, ?_, ?_, ?_, ?_, ?_⟩
    · rw [hstack2, List.append_assoc, List.singleton_append]
    · intro u hu
      rcases List.mem_append.mp hu with hu | hu
      · exact (hprenew u hu).1
      · rw [List.mem_singleton.mp hu]
        exact hv0
    · intro u hu i hi
      rcases List.mem_append.mp hu with hu | hu
      · exact hpf.idx_ge u hu i hi
      · rw [List.mem_singleton.mp hu, hvi2] at hi
        injection hi with hi
        omega
    · intro u hu
      rcases List.mem_append.mp hu with hu | hu
      · exact hpf.elow u hu
      · rw [List.mem_singleton.mp hu]
        exact ⟨l, st0.index_counter, hlv2, hvi2, hlt⟩
    · intro u hu x hx
      rcases List.mem_append.mp hu with hu | hu
      · exact hpf.succ_idx u hu x hx
      · rw [List.mem_singleton.mp hu] at hx
        exact linv.done_idx x (hdone x hx)
    · intro u hu x hx hxs ix iu hix hiu hltx
      rcases List.mem_append.mp hu with hu | hu
      · exact hpf.mprop u hu x hx hxs ix iu hix hiu hltx
      · have huv := List.mem_singleton.mp hu
        subst huv
        rw [hvi2] at hiu
        injection hiu with hiu
        exact linv.done_low x (hdone x hx) hxs ix hix (by omega)
    · intro u hu
      rcases List.mem_append.mp hu with hu | hu
      · exact hpf.reach_from u hu
      · rw [List.mem_singleton.mp hu]
        exact GReach.refl
    · intro u hu lv' hlv' lu hlu
      rcases List.mem_append.mp hu with hu | hu
      · rw [hlv2] at hlv'
        injection hlv' with hlv'
        rw [← hlv']
        exact hpf.low_ge u hu l hlv2 lu hlu
      · rw [List.mem_singleton.mp hu] at hlu
        rw [hlv'] at hlu
        injection hlu with hlu
        omega

theorem strongconnect_spec {g : Nat → Finset Nat} {V : Finset Nat}
    (HG : ∀ x, ∀ y ∈ g x, y ∈ V) :
    ∀ fuel, ∀ v st, TInv g V st → v ∈ V → st.index v = none →
    (∀ u ∈ st.stack, GReach g u v) →
    (V.filter (fun u => st.index u = none)).card < fuel →
    ∃ st', strongconnect g fuel v st = some st' ∧ SCPost g V v st st' := by
  intro fuel
  induction fuel with
  | zero => exact fun v st _ _ _ _ h => absurd h (Nat.not_lt_zero _)
  | succ fuel ih =>
    intro v st hinv hvV hv0 hacc hfuel
    have hlinv := pushSt_loopInv hinv hvV hv0 hacc
    obtain ⟨st2, hrun, hlinv2⟩ := visitLoop_spec HG ih hinv hv0 hvV hacc hfuel
      ((g v).sort (· ≤ ·)) [] (pushSt v st)
      (fun w hw => (Finset.mem_sort (α := Nat) (· ≤ ·)).mp hw) hlinv
    rw [List.nil_append] at hlinv2
    obtain ⟨st', hfin, hpost⟩ := finish_spec hinv hv0 hlinv2
    refine ⟨st', ?_, hpost⟩
    simp only [strongconnect, hrun]
    exact hfin

theorem scpost_empty_stack {g : Nat → Finset Nat} {V : Finset Nat}
    {v : Nat} {st st' : TarjanSt} (hpost : SCPost g V v st st')
    (hempty : st.stack = []) : st'.stack = [] := by
  rcases hpost.rest with ⟨h, -, -⟩ | ⟨pre, hps, hvp, -, hpf⟩
  · rw [h, hempty]
  · rw [hempty, List.append_nil] at hps
    have hnil : pre = [] := by
      apply no_min_descent pre (idxN st')
      intro u hu
      obtain ⟨l, i, hl, hi, hlt⟩ := hpf.elow u hu
      obtain ⟨z, hz, hzi, -⟩ := hpost.inv.low_witness u (by
        rw [hps]
        exact hu) l hl
      refine ⟨z, by rw [hps] at hz; exact hz, ?_⟩
      have h1 : idxN st' z = l := by
        unfold idxN
        rw [hzi]
        rfl
      have h2 : idxN st' u = i := by
        unfold idxN
        rw [hi]
        rfl
      omega
    rw [hps, hnil]

theorem tarjanMain_spec {g : Nat → Finset Nat} {V : Finset Nat}
    (HG : ∀ x, ∀ y ∈ g x, y ∈ V) (fuel : Nat) :
    ∀ vs st, TInv g V st → st.stack = [] → (∀ v ∈ vs, v ∈ V) →
    (V.filter (fun u => st.index u = none)).card < fuel →
    ∃ st', tarjanMain g fuel vs st = some st' ∧ TInv g V st' ∧
      st'.stack = [] ∧
      (∀ u i, st.index u = some i → st'.index u = some i) ∧
      (∀ v ∈ vs, (st'.index v).isSome) := by
  intro vs
  induction vs with
  | nil =>
    intro st hinv hemp _ _
    exact ⟨st, rfl, hinv, hemp, fun u i hh => hh, by simp⟩
  | cons v vs ih =>
    intro st hinv hemp hvs hfuel
    have hvs' : ∀ x ∈ vs, x ∈ V := fun x hx => hvs x (List.mem_cons_of_mem v hx)
    cases h : st.index v with
    | some j =>
      obtain ⟨st', hrun, hinv', hemp', hmono', hall⟩ := ih st hinv hemp hvs' hfuel
      refine ⟨st', ?_, hinv', hemp', hmono', ?_⟩
      · simp only [tarjanMain, h]
        exact hrun
      · intro x hx
        rcases List.mem_cons.mp hx with hx | hx
        · rw [hx, hmono' v j h]
          rfl
        · exact hall x hx
    | none =>
      obtain ⟨stm, hsc, hpost⟩ := strongconnect_spec HG fuel v st hinv
        (hvs v (List.mem_cons_self v vs)) h
        (by rw [hemp]; exact fun u hu => absurd hu (List.not_mem_nil u)) hfuel
      have hempm : stm.stack = [] := scpost_empty_stack hpost hemp
      have hfuel' : (V.filter (fun u => stm.index u = none)).card < fuel := by
        refine lt_of_le_of_lt (Finset.card_le_card ?_) hfuel
        intro u hu
        rw [Finset.mem_filter] at hu ⊢
        refine ⟨hu.1, ?_⟩
        by_cases hn : st.index u = none
        · exact hn
        · obtain ⟨k, hk⟩ := Option.ne_none_iff_exists'.mp hn
          rw [hpost.mono u k hk] at hu
          exact absurd hu.2 (by simp)
      obtain ⟨st', hrun, hinv', hemp', hmono', hall⟩ :=
        ih stm hpost.inv hempm hvs' hfuel'
      refine ⟨st', ?_, hinv', hemp', ?_, ?_⟩
      · simp only [tarjanMain, h, hsc]
        exact hrun
      · exact fun u i hh => hmono' u i (hpost.mono u i hh)
      · intro x hx
        rcases List.mem_cons.mp hx with hx | hx
        · rw [hx, hmono' v _ hpost.v_idx]
          rfl
        · exact hall x hx

theorem mem_sccGraph {edgeKeys : List (Nat × Nat)} {reachable : Finset Nat}
    {x y : Nat} : y ∈ sccGraph edgeKeys reachable x ↔
    ((x, y) ∈ edgeKeys ∧ x ∈ reachable ∧ y ∈ reachable) := by
  unfold sccGraph
  rw [List.mem_toFinset]
  constructor
  · intro h
    obtain ⟨e, he, hsnd⟩ := List.mem_map.mp h
    have hf := List.mem_filter.mp he
    have hp := of_decide_eq_true hf.2
    obtain ⟨h1, h2, h3⟩ := hp
    refine ⟨?_, h1 ▸ h2, hsnd ▸ h3⟩
    have : e = (x, y) := by
      rw [Prod.ext_iff]
      exact ⟨h1, hsnd⟩
    exact this ▸ hf.1
  · rintro ⟨he, hx, hy⟩
    refine List.mem_map.mpr ⟨(x, y), List.mem_filter.mpr ⟨he, ?_⟩, rfl⟩
    exact decide_eq_true (by exact ⟨rfl, hx, hy⟩)

theorem tarjanInit_inv {g : Nat → Finset Nat} {V : Finset Nat} :
    TInv g V tarjanInit := by
  refine ⟨List.nodup_nil, ?_, ?_, ?_, ?_, ?_, ?_, List.Pairwise.nil, ?_, ?_,
    ?_, List.Pairwise.nil, ?_⟩
  · intro u
    constructor
    · intro h
      exact absurd h (by simp [tarjanInit])
    · intro h
      exact absurd h (List.not_mem_nil u)
  · intro u
    constructor
    · intro h
      exact absurd h (by simp [tarjanInit])
    · intro h
      exact absurd h (by simp [tarjanInit])
  · intro u hu
    exact absurd hu (List.not_mem_nil u)
  · intro u i h
    exact absurd h (by simp [tarjanInit])
  · intro u w i hu
    exact absurd hu (by simp [tarjanInit])
  · intro u h
    exact absurd h (by simp [tarjanInit])
  · intro u l h
    exact absurd h (by simp [tarjanInit])
  · intro u hu
    exact absurd hu (List.not_mem_nil u)
  · intro u
    constructor
    · rintro ⟨h, -⟩
      exact absurd h (by simp [tarjanInit])
    · rintro ⟨S, hS, -⟩
      exact absurd hS (List.not_mem_nil S)
  · intro S hS
    exact absurd hS (List.not_mem_nil S)

theorem computeSccs_correct (edgeKeys : List (Nat × Nat))
    (reachable : Finset Nat) :
    ∃ sccs, computeSccs edgeKeys reachable = some sccs ∧
      (∀ v, v ∈ reachable ↔ ∃ S ∈ sccs, v ∈ S) ∧
      sccs.Pairwise (fun S T => ∀ a ∈ S, a ∉ T) ∧
      (∀ S ∈ sccs, ∀ a ∈ S, ∀ b ∈ S, ReachWithin edgeKeys S a b) := by
  have HG : ∀ x, ∀ y ∈ sccGraph edgeKeys reachable x, y ∈ reachable :=
    fun x y hy => (mem_sccGraph.mp hy).2.2
  have hfuel : (reachable.filter
      (fun u => tarjanInit.index u = none)).card < reachable.card + 1 := by
    have := Finset.card_filter_le reachable
      (fun u => tarjanInit.index u = none)
    omega
  obtain ⟨st', hrun, hinv', hemp', hmono', hall⟩ :=
    tarjanMain_spec HG (reachable.card + 1) (reachable.sort (· ≤ ·))
      tarjanInit tarjanInit_inv rfl
      (fun v hv => (Finset.mem_sort (α := Nat) (· ≤ ·)).mp hv) hfuel
  refine ⟨st'.sccs, ?_, ?_, hinv'.sccs_disj, ?_⟩
  · unfold computeSccs
    rw [hrun]
    rfl
  · intro v
    constructor
    · intro hv
      have hsome := hall v ((Finset.mem_sort (α := Nat) (· ≤ ·)).mpr hv)
      have hoff : st'.on_stack v = false := by
        cases hb : st'.on_stack v with
        | false => rfl
        | true =>
          have := (hinv'.onstack_iff v).mp hb
          rw [hemp'] at this
          exact absurd this (List.not_mem_nil v)
      exact (hinv'.blacks_iff v).mp ⟨hsome, hoff⟩
    · rintro ⟨S, hS, hvS⟩
      exact hinv'.indexed_V v ((hinv'.blacks_iff v).mpr ⟨S, hS, hvS⟩).1
  · intro S hS a ha b hb
    have hcl := hinv'.sccs_closed S hS
    have hpath := reachWithin_of_closed hcl a ha b hb
    refine Relation.ReflTransGen.mono ?_ hpath
    intro x y hxy
    exact ⟨(mem_sccGraph.mp hxy.1).1, hxy.2⟩

/-- C4: for every explicit automaton and every computed reachable state set,
`compute_sccs` succeeds and returns a collection of state sets whose union is
exactly the reachable set, which are pairwise disjoint, and in which every
state of an SCC can both reach and be reached from every other state of the
same SCC via `trans_by_edge` edges confined to that SCC. -/
theorem claim_C4_scc_partition (ex : ExplicitDfa) (reachable : Finset Nat) :
    ∃ sccs, computeSccs ex.edge_keys reachable = some sccs ∧
      (∀ v, v ∈ reachable ↔ ∃ S ∈ sccs, v ∈ S) ∧
      sccs.Pairwise (fun S T => ∀ a ∈ S, a ∉ T) ∧
      (∀ S ∈ sccs, ∀ a ∈ S, ∀ b ∈ S, ReachWithin ex.edge_keys S a b) :=
  computeSccs_correct ex.edge_keys reachable
